import Mathlib

/-!
# RAML (RS's Adaptive Movie Language): a shallow embedding of `RAML.cpp`

A `std::string` is a list of byte values (`List Nat`, each value below 256 in a
well-formed string); the delimiter `' '` is the byte 32.  `int` variables that only
count upwards are kept unbounded: every bound is only reached by inputs of at least
`2^31` bytes, outside the range the `int` loop counters of `encode` can index.
Loops are written with an explicit fuel argument; the fuel handed over by the callers
is shown to be enough.
-/

namespace RAML

/-! ## Program structures -/

/-- The `wv_block` struct (lines 62-67): a word, its occurrence count and a position. -/
structure wv_block where
  word : List Nat
  occurence : Int
  position : Int
deriving DecidableEq, Repr

/-- The comparator `wv_sort` (lines 71-74): sort from high to low occurrence. -/
def wv_sort (l r : wv_block) : Bool :=
  decide (l.occurence > r.occurence)

/-! ## `wml_to_string` (lines 76-90) -/

/-- The first loop of `wml_to_string` (lines 78-81): `n` rounds of
`data += (unsigned char)(pos % 256); pos /= 256`. -/
def wml_digits : Nat → Nat → List Nat → List Nat
  | 0, _, data => data
  | n + 1, pos, data => wml_digits n (pos / 256) (data ++ [pos % 256 % 256])

/-- The second loop of `wml_to_string` (lines 83-86): `rev` collects `data[i]` for
`i = data.size() - 1` down to `0`; `n` is the number of indexes still to visit. -/
def wml_reverse (data : List Nat) : Nat → List Nat → List Nat
  | 0, rev => rev
  | n + 1, rev => wml_reverse data n (rev ++ [data.getD n 0])

/-- The function `wml_to_string(pos, wml)` for `pos >= 0` and `wml >= 0`: the loop
`for (i = 0; i <= wml; i++)` runs `wml + 1` times, then the string is reversed. -/
def wml_to_string (pos wml : Nat) : List Nat :=
  let data := wml_digits (wml + 1) pos []
  wml_reverse data data.length []

/-! ## `wordpos_to_string` (lines 92-110) -/

/-- The `while (pos > 0)` loop of `wordpos_to_string` (lines 99-108). -/
def wordpos_loop : Nat → Nat → List Nat → List Nat
  | 0, _, d => d
  | fuel + 1, pos, d =>
    if pos > 0 then
      let t := pos &&& 127
      let t := if pos < 128 then t ||| 128 else t
      wordpos_loop fuel (pos / 128) (d ++ [t % 256])
    else d

/-- The function `wordpos_to_string(pos)`: a zero position gives the byte 128, a positive
one goes through the loop, a negative one (the `-1` of `find`) leaves the string empty. -/
def wordpos_to_string (pos : Int) : List Nat :=
  let d := if pos = 0 then [128] else []
  wordpos_loop pos.toNat pos.toNat d

/-! ## `find` (lines 112-119) -/

/-- The loop of `find`, started at index `i` on the entries from `i` onwards. -/
def find_from (word : List Nat) : List wv_block → Nat → Int
  | [], _ => -1
  | b :: bs, i => if b.word = word then (i : Int) else find_from word bs (i + 1)

/-- The function `find(word, wordlist)`: first index whose word is `word`, else `-1`. -/
def find (word : List Nat) (wordlist : List wv_block) : Int :=
  find_from word wordlist 0

/-! ## `encode` (lines 122-222) -/

/-- The inner loop of the tokenizer (lines 134-137 and 202-205):
`while (data[i] != ' ' && i < data.size()) { tmp_word += data[i]; i++; }`;
`data[data.size()]` is the terminating zero byte. -/
def skip_nonspace (data : List Nat) : Nat → Nat → List Nat → Nat × List Nat
  | 0, i, tmp_word => (i, tmp_word)
  | fuel + 1, i, tmp_word =>
    if data.getD i 0 ≠ 32 ∧ i < data.length then
      skip_nonspace data fuel (i + 1) (tmp_word ++ [data.getD i 0])
    else (i, tmp_word)

/-- The head of both loop bodies of `encode` (lines 132-141 and 200-209): clear
`tmp_word`, collect the non-space bytes, then append the space when one is there.
Returns the index reached and `tmp_word`. -/
def read_word (data : List Nat) (i : Nat) : Nat × List Nat :=
  let r := skip_nonspace data data.length i []
  if r.1 < data.length then (r.1, r.2 ++ [data.getD r.1 0]) else r

/-- The loop `for (int i = 0; i < data.size(); i++)` of `encode` (lines 130 and 198),
with `step` standing for what the body does with `tmp_word` once it is built. -/
def word_loop {σ : Type} (step : σ → List Nat → σ) (data : List Nat) : Nat → Nat → σ → σ
  | 0, _, s => s
  | fuel + 1, i, s =>
    if i < data.length then
      let r := read_word data i
      word_loop step data fuel (r.1 + 1) (step s r.2)
    else s

/-- The token sequence of `encode`: the values `tmp_word` takes, in order. -/
def encode_tokens (data : List Nat) : List (List Nat) :=
  word_loop (fun acc tmp_word => acc ++ [tmp_word]) data data.length 0 []

/-- The search loop of the first pass (lines 145-153): the first entry whose word is
`tmp_word` gets `occurence += 1`; `none` when `word_exists` stays false. -/
def bump_word (tmp_word : List Nat) : List wv_block → Option (List wv_block)
  | [] => none
  | b :: bs =>
    if b.word = tmp_word then some ({ b with occurence := b.occurence + 1 } :: bs)
    else (bump_word tmp_word bs).map (fun r => b :: r)

/-- The rest of the body of the first pass (lines 143-159) on the state `(words, x.wc)`;
`x.wc` is an `unsigned long long`. -/
def add_word (st : List wv_block × Nat) (tmp_word : List Nat) : List wv_block × Nat :=
  match bump_word tmp_word st.1 with
  | some ws => (ws, (st.2 + 1) % 2 ^ 64)
  | none => (st.1 ++ [{ word := tmp_word, occurence := 1, position := 0 }], (st.2 + 1) % 2 ^ 64)

/-- The first pass of `encode` (lines 123-160): `words` and `x.wc` after the loop. -/
def encode_pass1 (data : List Nat) : List wv_block × Nat :=
  word_loop add_word data data.length 0 ([], 0)

/-- The word list of `encode` after `std::sort(words.begin(), words.end(), wv_sort)`
(line 164); `sort` stands for the library routine. -/
def encode_words (sort : List wv_block → List wv_block) (data : List Nat) : List wv_block :=
  sort (encode_pass1 data).1

/-- The loop that finds the longest word (lines 171-177). -/
def max_word_length (words : List wv_block) : Nat :=
  words.foldl (fun m b => if b.word.length ≥ m then b.word.length else m) 0

/-- The dictionary section (lines 188-195): for each word its length as
`wml_to_string(length, x.wml)`, then the word. -/
def encode_dictionary (wml : Nat) (words : List wv_block) : List Nat :=
  words.foldl (fun o b => o ++ wml_to_string b.word.length wml ++ b.word) []

/-- The values `word_pos` takes in the second pass (lines 198-217), in order. -/
def encode_indexes (sort : List wv_block → List wv_block) (data : List Nat) : List Int :=
  word_loop (fun acc tmp_word => acc ++ [find tmp_word (encode_words sort data)])
    data data.length 0 []

/-- The bytes the second pass writes (lines 198-217): `wordpos_to_string(word_pos)` for
each word in turn. -/
def encode_index_bytes (sort : List wv_block → List wv_block) (data : List Nat) : List Nat :=
  word_loop (fun o tmp_word => o ++ wordpos_to_string (find tmp_word (encode_words sort data)))
    data data.length 0 []

/-- The function `decode` (lines 226-228): the body is empty, so control reaches the
closing brace of a function declared to return `std::string` and no value is produced. -/
def decode (_infile : List Nat) : Option (List Nat) :=
  none

/-! ## The contract of `std::sort` and a reference instance -/

/-- What the C++ standard promises of `std::sort(first, last, comp)`: the result is a
rearrangement of the range, and no later element compares before an earlier one. -/
structure StdSort (comp : wv_block → wv_block → Bool)
    (sort : List wv_block → List wv_block) : Prop where
  perm : ∀ l, (sort l).Perm l
  sorted : ∀ l, (sort l).Pairwise (fun a b => comp b a = false)

/-- Insertion of one element into a sorted run, as the insertion phase of a library sort
does it: `x` settles behind exactly the elements that compare before it. -/
def sort_insert (comp : wv_block → wv_block → Bool) (x : wv_block) :
    List wv_block → List wv_block
  | [] => [x]
  | y :: ys => if comp y x then y :: sort_insert comp x ys else x :: y :: ys

/-- An insertion sort by `comp`, used as a concrete instance of `std::sort`. -/
def insertion_sort (comp : wv_block → wv_block → Bool) : List wv_block → List wv_block
  | [] => []
  | x :: xs => sort_insert comp x (insertion_sort comp xs)

/-! ## The decoder of the specification -/

/-- The varint decoder as section 4.4 of the specification words it: read bytes while the
high bit is 0, adding each byte's low 7 bits at the shift reached so far; the first byte
with high bit 1 supplies the last group.  `none` is the FormatError of a stream that
ends before a terminal byte.  Returns the rank and the number of bytes consumed. -/
def spec_decode_varint_from : List Nat → Nat → Nat → Nat → Option (Nat × Nat)
  | [], _, _, _ => none
  | b :: bs, shift, acc, n =>
    let acc := acc + (b % 128) * 2 ^ shift
    if b / 128 % 2 = 1 then some (acc, n + 1)
    else spec_decode_varint_from bs (shift + 7) acc (n + 1)

/-- The decoder of the specification, started at the cursor: shift 0, nothing read. -/
def spec_decode_varint (bytes : List Nat) : Option (Nat × Nat) :=
  spec_decode_varint_from bytes 0 0 0

/-! ## Proof-side forms -/

/-- The tokenizer as a recursion on the unread suffix: `cur` is `tmp_word` so far.  It is
shown equal to the index loop of `encode` (`word_loop_eq`). -/
def split_words : List Nat → List Nat → List (List Nat)
  | cur, [] => if cur = [] then [] else [cur]
  | cur, c :: cs =>
    if c = 32 then (cur ++ [c]) :: split_words [] cs else split_words (cur ++ [c]) cs

/-- The invariant of the first pass, after the tokens `seen`: the words of the list are
distinct, they are the tokens seen, and each count is the number of times seen. -/
def DictInv (ws : List wv_block) (seen : List (List Nat)) : Prop :=
  (ws.map (fun b => b.word)).Nodup ∧
  (∀ w, w ∈ ws.map (fun b => b.word) ↔ w ∈ seen) ∧
  (∀ b ∈ ws, b.occurence = (seen.count b.word : Int))

/-- The word stored at position `k` of the word list (empty outside the list). -/
def word_at (words : List wv_block) (k : Int) : List Nat :=
  if 0 ≤ k then
    match words[k.toNat]? with
    | some b => b.word
    | none => []
  else []

/-- The bytes of a text literal. -/
def bytes (s : String) : List Nat :=
  s.toList.map Char.toNat

/-- Big-endian value of a byte string. -/
def be_value (l : List Nat) : Nat :=
  l.foldl (fun v b => v * 256 + b) 0

/-! ## Further forms used by the claims -/

/-- Reading `T` varints in a row with the decoder of the specification, each one from the
byte after the previous one; returns the ranks read and the bytes left unread. -/
def spec_decode_stream : Nat → List Nat → Option (List Nat × List Nat)
  | 0, bs => some ([], bs)
  | T + 1, bs =>
    match spec_decode_varint bs with
    | none => none
    | some (r, n) =>
      match spec_decode_stream T (bs.drop n) with
      | none => none
      | some (rs, rest) => some (r :: rs, rest)

/-- A sort that keeps entries of equal count in their original order; `std::sort` does
not promise this. -/
def StableSort (sort : List wv_block → List wv_block) : Prop :=
  ∀ (l : List wv_block) (c : Int),
    (sort l).filter (fun b => decide (b.occurence = c)) =
      l.filter (fun b => decide (b.occurence = c))

/-- The position of the first occurrence of the token `w` in a token sequence (the length
of the sequence when `w` does not occur). -/
def first_occurrence (w : List Nat) : List (List Nat) → Nat
  | [] => 0
  | t :: ts => if t = w then 0 else first_occurrence w ts + 1

/-- The `log256` of the header comment (lines 5-6) read as a count of base-256 digits,
as its own example does (1 for the length 11, 3 for 65537 words): `fuel` rounds of
division by 256. -/
def digits256_loop : Nat → Nat → Nat
  | 0, _ => 0
  | fuel + 1, x => if x < 256 then 1 else digits256_loop fuel (x / 256) + 1

/-- The number of base-256 digits of `x`. -/
def digits256 (x : Nat) : Nat :=
  digits256_loop (x + 1) x

/-- The bytes one word takes in the file: its dictionary entry, that is the length field
and the word (lines 191-193), and one reference to it in the index stream (line 215). -/
def word_cost (wml : Nat) (words : List wv_block) (w : List Nat) : Nat :=
  (wml_to_string w.length wml ++ w).length + (wordpos_to_string (find w words)).length

/-- A script of 129 different words: the bytes 33 to 161, each followed by a space. -/
def script_129 : List Nat :=
  (List.range 129).flatMap (fun i => [i + 33, 32])

/-! ## The `std::sort` of GNU libstdc++

`encode` calls the library routine `std::sort`, which is not part of the repository.  Most
statements below hold for every routine that meets the contract `StdSort`.  The order of
entries of equal count depends on the routine itself, so the one a GNU toolchain links
(`bits/stl_algo.h`) is written out here: an introsort loop that partitions ranges of more
than 16 elements around a median of three, then an insertion sort.  The heap sort that the
loop falls back to at depth limit 0 is not written out: the model returns `none` there,
and also when a loop runs out of fuel. -/

/-- The function `std::__lg`: the position of the highest set bit, by repeated halving. -/
def std_lg_loop : Nat → Nat → Nat
  | 0, _ => 0
  | fuel + 1, n => if n ≤ 1 then 0 else std_lg_loop fuel (n / 2) + 1

/-- The value `std::__lg(n)`. -/
def std_lg (n : Nat) : Nat :=
  std_lg_loop n n

/-- The element an iterator at position `i` points to. -/
def elem_at (l : List wv_block) (i : Nat) : wv_block :=
  l.getD i ⟨[], 0, 0⟩

/-- The function `std::iter_swap` on the positions `i` and `j`. -/
def iter_swap (l : List wv_block) (i j : Nat) : List wv_block :=
  match l[i]?, l[j]? with
  | some a, some b => (l.set i b).set j a
  | _, _ => l

/-- The function `__move_median_to_first(result, a, b, c, comp)`: the median of the
elements at `a`, `b`, `c` is swapped with the element at `result`. -/
def move_median_to_first (comp : wv_block → wv_block → Bool) (l : List wv_block)
    (result a b c : Nat) : List wv_block :=
  if comp (elem_at l a) (elem_at l b) then
    if comp (elem_at l b) (elem_at l c) then iter_swap l result b
    else if comp (elem_at l a) (elem_at l c) then iter_swap l result c
    else iter_swap l result a
  else if comp (elem_at l a) (elem_at l c) then iter_swap l result a
  else if comp (elem_at l b) (elem_at l c) then iter_swap l result c
  else iter_swap l result b

/-- The loop `while (comp(first, pivot)) ++first` of `__unguarded_partition`. -/
def partition_up (comp : wv_block → wv_block → Bool) (l : List wv_block) (pivot : Nat) :
    Nat → Nat → Option Nat
  | 0, _ => none
  | fuel + 1, first =>
    if comp (elem_at l first) (elem_at l pivot) then partition_up comp l pivot fuel (first + 1)
    else some first

/-- The loop `while (comp(pivot, last)) --last` of `__unguarded_partition`. -/
def partition_down (comp : wv_block → wv_block → Bool) (l : List wv_block) (pivot : Nat) :
    Nat → Nat → Option Nat
  | 0, _ => none
  | fuel + 1, last =>
    if comp (elem_at l pivot) (elem_at l last) then partition_down comp l pivot fuel (last - 1)
    else some last

/-- The function `__unguarded_partition(first, last, pivot, comp)`: returns the range
after the swaps and the cut position. -/
def unguarded_partition (comp : wv_block → wv_block → Bool) (pivot : Nat) :
    Nat → List wv_block → Nat → Nat → Option (List wv_block × Nat)
  | 0, _, _, _ => none
  | fuel + 1, l, first, last =>
    match partition_up comp l pivot (l.length + 1) first with
    | none => none
    | some first1 =>
      match partition_down comp l pivot (l.length + 1) (last - 1) with
      | none => none
      | some last1 =>
        if first1 < last1 then
          unguarded_partition comp pivot fuel (iter_swap l first1 last1) (first1 + 1) last1
        else some (l, first1)

/-- The function `__unguarded_partition_pivot(first, last, comp)`: the median of the
elements at `first + 1`, the middle and `last - 1` becomes the pivot at `first`. -/
def unguarded_partition_pivot (comp : wv_block → wv_block → Bool) (l : List wv_block)
    (first last : Nat) : Option (List wv_block × Nat) :=
  let mid := first + (last - first) / 2
  let l1 := move_median_to_first comp l first (first + 1) mid (last - 1)
  unguarded_partition comp first (l1.length + 1) l1 (first + 1) last

/-- The function `__introsort_loop(first, last, depth_limit, comp)`, by recursion on
`depth_limit`: while the range has more than 16 elements it is partitioned, the upper
part is handled by the recursive call and the loop goes on with the lower part. -/
def introsort_loop (comp : wv_block → wv_block → Bool) :
    Nat → List wv_block → Nat → Nat → Option (List wv_block)
  | 0, l, first, last => if last - first > 16 then none else some l
  | depth + 1, l, first, last =>
    if last - first > 16 then
      match unguarded_partition_pivot comp l first last with
      | none => none
      | some (l1, cut) =>
        match introsort_loop comp depth l1 cut last with
        | none => none
        | some l2 => introsort_loop comp depth l2 first cut
    else some l

/-- The function `__unguarded_linear_insert`: `val` moves towards the front past every
element it compares before.  The argument lists the elements in front of `val`, the
nearest first, and so does the result (with `val` in it). -/
def unguarded_linear_insert (comp : wv_block → wv_block → Bool) (val : wv_block) :
    List wv_block → List wv_block
  | [] => [val]
  | next :: rest =>
    if comp val next then next :: unguarded_linear_insert comp val rest
    else val :: next :: rest

/-- The body of the loop of `__insertion_sort`: `pre` is the sorted part and `x` the next
element; it goes to the front when it compares before the first element, else it is
inserted from the back. -/
def insertion_step (comp : wv_block → wv_block → Bool) (pre : List wv_block) (x : wv_block) :
    List wv_block :=
  match pre with
  | [] => [x]
  | f :: _ =>
    if comp x f then x :: pre else (unguarded_linear_insert comp x pre.reverse).reverse

/-- The function `__insertion_sort(first, last, comp)`. -/
def std_insertion_sort (comp : wv_block → wv_block → Bool) : List wv_block → List wv_block
  | [] => []
  | x :: xs => xs.foldl (insertion_step comp) [x]

/-- The function `__unguarded_insertion_sort`: every element of `rest` is inserted from
the back into the part `pre` in front of it. -/
def unguarded_insertion_sort (comp : wv_block → wv_block → Bool)
    (pre rest : List wv_block) : List wv_block :=
  rest.foldl (fun p x => (unguarded_linear_insert comp x p.reverse).reverse) pre

/-- The function `__final_insertion_sort(first, last, comp)`. -/
def final_insertion_sort (comp : wv_block → wv_block → Bool) (l : List wv_block) :
    List wv_block :=
  if l.length > 16 then
    unguarded_insertion_sort comp (std_insertion_sort comp (l.take 16)) (l.drop 16)
  else std_insertion_sort comp l

/-- The function `std::sort(first, last, comp)` of libstdc++ (`std::__sort`). -/
def libstdcxx_sort (comp : wv_block → wv_block → Bool) (l : List wv_block) :
    Option (List wv_block) :=
  match l with
  | [] => some []
  | _ :: _ =>
    match introsort_loop comp (std_lg l.length * 2) l 0 l.length with
    | none => none
    | some l1 => some (final_insertion_sort comp l1)

/-! ## The varint of `wordpos_to_string` -/

theorem and_127 (pos : Nat) : pos &&& 127 = pos % 128 :=
  Nat.and_pow_two_sub_one_eq_mod pos 7

theorem or_128 (t : Nat) (h : t < 128) : t ||| 128 = t + 128 := by
  have := Nat.mul_add_lt_is_or (i := 7) (b := t) (by simpa using h) 1
  simp at this
  rw [Nat.or_comm, ← this]; omega

/-- The accumulated string is a prefix argument only: the loop appends to it. -/
theorem wordpos_loop_append (fuel pos : Nat) (d : List Nat) :
    wordpos_loop fuel pos d = d ++ wordpos_loop fuel pos [] := by
  induction fuel generalizing pos d with
  | zero => simp [wordpos_loop]
  | succ fuel ih =>
    unfold wordpos_loop
    by_cases hp : pos > 0
    · simp only [hp, if_true]
      rw [ih, ih (d := [] ++ _)]
      simp
    · simp [hp]

/-- One round of the loop on a positive position. -/
theorem wordpos_loop_step (fuel pos : Nat) (hp : 0 < pos) :
    wordpos_loop (fuel + 1) pos [] =
      (if pos < 128 then pos + 128 else pos % 128) :: wordpos_loop fuel (pos / 128) [] := by
  rw [wordpos_loop]
  simp only [gt_iff_lt, hp, if_true, List.nil_append]
  rw [wordpos_loop_append]
  by_cases h : pos < 128
  · simp only [h, if_true, and_127]
    rw [Nat.mod_eq_of_lt h, or_128 pos h, Nat.mod_eq_of_lt (by omega)]
    rfl
  · simp only [h, if_false, and_127]
    rw [Nat.mod_eq_of_lt (a := pos % 128) (by omega)]
    rfl

theorem wordpos_loop_zero (fuel : Nat) : wordpos_loop fuel 0 [] = [] := by
  cases fuel <;> simp [wordpos_loop]

/-- The decoder of the specification inverts the loop, from any shift and accumulator. -/
theorem spec_decode_wordpos_loop (fuel : Nat) :
    ∀ pos shift acc n, 0 < pos → pos ≤ fuel →
      spec_decode_varint_from (wordpos_loop fuel pos []) shift acc n =
        some (acc + pos * 2 ^ shift, n + (wordpos_loop fuel pos []).length) := by
  induction fuel with
  | zero => intro pos _ _ _ hp hf; omega
  | succ fuel ih =>
    intro pos shift acc n hp hf
    rw [wordpos_loop_step fuel pos hp]
    by_cases h : pos < 128
    · have h0 : pos / 128 = 0 := by omega
      have h1 : (pos + 128) % 128 = pos := by omega
      have h2 : (pos + 128) / 128 % 2 = 1 := by omega
      simp [h, spec_decode_varint_from, h0, wordpos_loop_zero, h1, h2]
    · have h1 : pos % 128 % 128 = pos % 128 := by omega
      have h2 : ¬ (pos % 128 / 128 % 2 = 1) := by omega
      have hq : 0 < pos / 128 := by omega
      have hq2 : pos / 128 ≤ fuel := by omega
      simp only [h, if_false, spec_decode_varint_from, h1, h2, List.length_cons]
      rw [ih (pos / 128) (shift + 7) _ (n + 1) hq hq2]
      congr 2
      · rw [pow_add]
        have := Nat.div_add_mod pos 128
        generalize pos / 128 = q at this
        generalize pos % 128 = r at this
        subst this
        ring
      · omega

/-! ## The tokenizing loop -/

theorem takeWhile_drop_step (data : List Nat) (i : Nat) (hi : i < data.length) :
    (data.drop i).takeWhile (fun c => c != 32) =
      if data[i] = 32 then [] else data[i] :: (data.drop (i + 1)).takeWhile (fun c => c != 32) := by
  rw [List.drop_eq_getElem_cons hi, List.takeWhile_cons]
  by_cases hc : data[i] = 32 <;> simp [hc]

theorem skip_nonspace_eq (data : List Nat) (fuel : Nat) :
    ∀ i tmp, data.length - i ≤ fuel →
      skip_nonspace data fuel i tmp =
        (i + ((data.drop i).takeWhile (fun c => c != 32)).length,
          tmp ++ (data.drop i).takeWhile (fun c => c != 32)) := by
  induction fuel with
  | zero =>
    intro i tmp h
    have : data.drop i = [] := List.drop_eq_nil_of_le (by omega)
    simp [skip_nonspace, this]
  | succ fuel ih =>
    intro i tmp h
    unfold skip_nonspace
    by_cases hi : i < data.length
    · have hg : data.getD i 0 = data[i] := by simp [List.getD_eq_getElem, hi]
      rw [takeWhile_drop_step data i hi, hg]
      by_cases hc : data[i] = 32
      · simp [hc]
      · simp only [ne_eq, hc, not_false_eq_true, hi, and_self, if_true, if_false]
        rw [ih (i + 1) _ (by omega)]
        simp only [List.length_cons, List.append_assoc, List.singleton_append, Prod.mk.injEq,
          and_true]
        omega
    · have : data.drop i = [] := List.drop_eq_nil_of_le (by omega)
      simp [hi, this]

theorem split_words_nil (cur : List Nat) :
    split_words cur [] = if cur = [] then [] else [cur] := by
  simp [split_words]

theorem split_words_cons (cur : List Nat) (c : Nat) (cs : List Nat) :
    split_words cur (c :: cs) =
      if c = 32 then (cur ++ [c]) :: split_words [] cs else split_words (cur ++ [c]) cs := by
  simp [split_words]

theorem split_words_eq (rest : List Nat) :
    ∀ cur, split_words cur rest =
      match rest.dropWhile (fun c => c != 32) with
      | [] =>
        if cur ++ rest.takeWhile (fun c => c != 32) = [] then []
        else [cur ++ rest.takeWhile (fun c => c != 32)]
      | c :: r => (cur ++ rest.takeWhile (fun c => c != 32) ++ [c]) :: split_words [] r := by
  induction rest with
  | nil => intro cur; simp [split_words_nil]
  | cons c cs ih =>
    intro cur
    rw [split_words_cons]
    by_cases hc : c = 32
    · simp [hc]
    · simp only [hc, if_false]
      rw [ih]
      simp [List.dropWhile_cons, List.takeWhile_cons, hc]

theorem drop_takeWhile_length (p : Nat → Bool) (l : List Nat) :
    l.drop (l.takeWhile p).length = l.dropWhile p := by
  conv_lhs => arg 2; rw [← List.takeWhile_append_dropWhile p l]
  exact List.drop_left _ _

theorem word_loop_done {σ : Type} (step : σ → List Nat → σ) (data : List Nat)
    (fuel i : Nat) (s : σ) (h : ¬ i < data.length) : word_loop step data fuel i s = s := by
  cases fuel <;> simp [word_loop, h]

/-- The index loop of `encode` folds its body over the words of the unread suffix. -/
theorem word_loop_eq {σ : Type} (step : σ → List Nat → σ) (data : List Nat) (fuel : Nat) :
    ∀ i s, data.length - i ≤ fuel →
      word_loop step data fuel i s = (split_words [] (data.drop i)).foldl step s := by
  induction fuel with
  | zero =>
    intro i s h
    have : data.drop i = [] := List.drop_eq_nil_of_le (by omega)
    simp [word_loop, this, split_words_nil]
  | succ fuel ih =>
    intro i s h
    by_cases hi : i < data.length
    · rw [word_loop]
      simp only [hi, if_true]
      have hsk := skip_nonspace_eq data data.length i [] (by omega)
      have hsplit := List.takeWhile_append_dropWhile (fun c => c != 32) (data.drop i)
      have hlen := congrArg List.length hsplit
      simp only [List.length_append, List.length_drop] at hlen
      have hdrop : data.drop (i + ((data.drop i).takeWhile (fun c => c != 32)).length) =
          (data.drop i).dropWhile (fun c => c != 32) := by
        rw [← drop_takeWhile_length, List.drop_drop, Nat.add_comm]
      rw [split_words_eq]
      unfold read_word
      simp only [hsk, List.nil_append]
      by_cases hj : i + ((data.drop i).takeWhile (fun c => c != 32)).length < data.length
      · simp only [hj, if_true]
        rw [← hdrop, List.drop_eq_getElem_cons hj]
        simp only [List.foldl_cons]
        rw [ih _ _ (by omega)]
        simp [List.getD_eq_getElem, hj]
      · simp only [hj, if_false]
        have hnil : (data.drop i).dropWhile (fun c => c != 32) = [] := by
          apply List.eq_nil_of_length_eq_zero; omega
        have hne : (data.drop i).takeWhile (fun c => c != 32) ≠ [] := by
          intro h0
          rw [h0, hnil] at hlen
          simp at hlen; omega
        rw [hnil]
        simp only [hne, if_false, List.foldl_cons, List.foldl_nil]
        exact word_loop_done step data fuel _ _ (by omega)
    · have : data.drop i = [] := List.drop_eq_nil_of_le (by omega)
      rw [word_loop_done step data _ i s hi, this]
      simp [split_words_nil]

theorem foldl_collect {α β : Type} (f : α → β) (l : List α) :
    ∀ init : List β, l.foldl (fun acc w => acc ++ [f w]) init = init ++ l.map f := by
  induction l with
  | nil => intro init; simp
  | cons a l ih => intro init; simp [ih]

theorem foldl_collect_append {α β : Type} (f : α → List β) (l : List α) :
    ∀ init : List β, l.foldl (fun acc w => acc ++ f w) init = init ++ (l.map f).flatten := by
  induction l with
  | nil => intro init; simp
  | cons a l ih => intro init; simp [ih]

theorem encode_tokens_eq (data : List Nat) : encode_tokens data = split_words [] data := by
  unfold encode_tokens
  rw [word_loop_eq _ data data.length 0 [] (by omega)]
  have := foldl_collect (fun w : List Nat => w) (split_words [] data) []
  simpa using this

theorem word_loop_tokens {σ : Type} (step : σ → List Nat → σ) (data : List Nat) (s : σ) :
    word_loop step data data.length 0 s = (encode_tokens data).foldl step s := by
  rw [encode_tokens_eq, word_loop_eq step data data.length 0 s (by omega)]
  simp

theorem encode_pass1_eq (data : List Nat) :
    encode_pass1 data = (encode_tokens data).foldl add_word ([], 0) :=
  word_loop_tokens add_word data _

theorem encode_indexes_eq (sort : List wv_block → List wv_block) (data : List Nat) :
    encode_indexes sort data =
      (encode_tokens data).map (fun w => find w (encode_words sort data)) := by
  unfold encode_indexes
  rw [word_loop_tokens, foldl_collect]
  simp

theorem encode_index_bytes_eq (sort : List wv_block → List wv_block) (data : List Nat) :
    encode_index_bytes sort data =
      ((encode_indexes sort data).map wordpos_to_string).flatten := by
  unfold encode_index_bytes
  rw [word_loop_tokens, foldl_collect_append, encode_indexes_eq]
  simp [List.map_map, Function.comp_def]

/-! ### Shape of the words -/

theorem split_words_join (rest : List Nat) :
    ∀ cur, (split_words cur rest).flatten = cur ++ rest := by
  induction rest with
  | nil => intro cur; by_cases h : cur = [] <;> simp [split_words_nil, h]
  | cons c cs ih =>
    intro cur
    rw [split_words_cons]
    by_cases hc : c = 32
    · simp [hc, ih]
    · simp [hc, ih]

theorem split_words_ne_nil (rest : List Nat) :
    ∀ cur, ∀ t ∈ split_words cur rest, t ≠ [] := by
  induction rest with
  | nil =>
    intro cur t ht
    by_cases h : cur = [] <;> simp [split_words_nil, h] at ht
    subst ht; exact h
  | cons c cs ih =>
    intro cur t ht
    rw [split_words_cons] at ht
    by_cases hc : c = 32
    · simp only [hc, if_true, List.mem_cons] at ht
      rcases ht with ht | ht
      · subst ht; simp
      · exact ih _ t ht
    · simp only [hc, if_false] at ht
      exact ih _ t ht

theorem split_words_space_last (rest : List Nat) :
    ∀ cur, 32 ∉ cur → ∀ t ∈ split_words cur rest, 32 ∉ t.dropLast := by
  induction rest with
  | nil =>
    intro cur hcur t ht
    by_cases h : cur = [] <;> simp [split_words_nil, h] at ht
    subst ht
    exact fun hm => hcur (List.dropLast_subset _ hm)
  | cons c cs ih =>
    intro cur hcur t ht
    rw [split_words_cons] at ht
    by_cases hc : c = 32
    · simp only [hc, if_true, List.mem_cons] at ht
      rcases ht with ht | ht
      · subst ht; simpa using hcur
      · exact ih [] (by simp) t ht
    · simp only [hc, if_false] at ht
      refine ih (cur ++ [c]) ?_ t ht
      simp only [List.mem_append, List.mem_singleton, not_or]
      exact ⟨hcur, fun h => hc h.symm⟩

theorem split_words_inner_space (rest : List Nat) :
    ∀ cur k, (h : k + 1 < (split_words cur rest).length) →
      ((split_words cur rest)[k]).getLast? = some 32 := by
  induction rest with
  | nil =>
    intro cur k h
    by_cases hc : cur = [] <;> simp [split_words_nil, hc] at h
  | cons c cs ih =>
    intro cur k
    rw [split_words_cons]
    by_cases hc : c = 32
    · simp only [hc, if_true]
      intro h
      cases k with
      | zero => simp
      | succ k =>
        simp only [List.getElem_cons_succ]
        exact ih [] k (by simpa using h)
    · simp only [hc, if_false]
      exact ih (cur ++ [c]) k

theorem getLast?_flatten (l : List (List Nat)) (t : List Nat)
    (hl : l.getLast? = some t) (ht : t ≠ []) : l.flatten.getLast? = t.getLast? := by
  obtain ⟨ys, rfl⟩ := List.getLast?_eq_some_iff.mp hl
  rw [List.flatten_append]
  simp only [List.flatten_cons, List.flatten_nil, List.append_nil]
  rw [List.getLast?_append, List.getLast?_eq_getLast t ht]
  rfl

theorem encode_tokens_flatten (data : List Nat) : (encode_tokens data).flatten = data := by
  rw [encode_tokens_eq, split_words_join]; simp

theorem encode_tokens_ne_nil (data : List Nat) : ∀ t ∈ encode_tokens data, t ≠ [] := by
  rw [encode_tokens_eq]; exact split_words_ne_nil data []

/-! ## The first pass: building the word list -/

theorem bump_word_none (w : List Nat) (ws : List wv_block) :
    bump_word w ws = none ↔ w ∉ ws.map (fun b => b.word) := by
  induction ws with
  | nil => simp [bump_word]
  | cons b bs ih =>
    unfold bump_word
    by_cases h : b.word = w
    · simp [h]
    · have h2 : ¬ w = b.word := fun e => h e.symm
      simp [h, h2, ih]

theorem bump_word_some (w : List Nat) (ws : List wv_block)
    (hmem : w ∈ ws.map (fun b => b.word)) (hnd : (ws.map (fun b => b.word)).Nodup) :
    bump_word w ws = some (ws.map (fun b =>
      if b.word = w then { b with occurence := b.occurence + 1 } else b)) := by
  induction ws with
  | nil => simp at hmem
  | cons b bs ih =>
    unfold bump_word
    rw [List.map_cons, List.nodup_cons] at hnd
    by_cases h : b.word = w
    · simp only [h, if_true, List.map_cons, Option.some.injEq, List.cons.injEq, true_and]
      have hid : ∀ x ∈ bs, (if x.word = w then { x with occurence := x.occurence + 1 } else x) = x := by
        intro x hx
        have : x.word ≠ w := by
          intro e
          exact hnd.1 (by rw [h, ← e]; exact List.mem_map_of_mem _ hx)
        simp [this]
      rw [List.map_congr_left hid]
      simp
    · have hmem2 : w ∈ bs.map (fun b => b.word) := by
        rw [List.map_cons, List.mem_cons] at hmem
        rcases hmem with e | e
        · exact absurd e.symm h
        · exact e
      simp [h, ih hmem2 hnd.2]

theorem dictInv_nil : DictInv [] [] := by
  simp [DictInv]

theorem dictInv_add (ws : List wv_block) (n : Nat) (seen : List (List Nat)) (w : List Nat)
    (h : DictInv ws seen) : DictInv (add_word (ws, n) w).1 (seen ++ [w]) := by
  obtain ⟨hnd, hmem, hocc⟩ := h
  unfold add_word
  by_cases hw : w ∈ ws.map (fun b => b.word)
  · rw [bump_word_some w ws hw hnd]
    have hwords : (ws.map (fun b =>
        if b.word = w then { b with occurence := b.occurence + 1 } else b)).map
        (fun b => b.word) = ws.map (fun b => b.word) := by
      rw [List.map_map]
      apply List.map_congr_left
      intro x _
      by_cases e : x.word = w <;> simp [e]
    refine ⟨?_, ?_, ?_⟩
    · simpa only [hwords] using hnd
    · intro v
      simp only [hwords, List.mem_append, List.mem_singleton]
      constructor
      · intro hv; exact Or.inl ((hmem v).mp hv)
      · rintro (hv | hv)
        · exact (hmem v).mpr hv
        · rw [hv]; exact hw
    · intro b hb
      simp only [List.mem_map] at hb
      obtain ⟨x, hx, rfl⟩ := hb
      by_cases e : x.word = w
      · simp only [e, if_true, List.count_append]
        rw [hocc x hx, e]
        simp
      · have e2 : ¬ w = x.word := fun e3 => e e3.symm
        simp only [e, if_false, List.count_append]
        rw [hocc x hx]
        simp [List.count_singleton, e2]
  · rw [(bump_word_none w ws).mpr hw]
    have hseen : w ∉ seen := fun hs => hw ((hmem w).mpr hs)
    refine ⟨?_, ?_, ?_⟩
    · simp only [List.map_append, List.map_cons, List.map_nil]
      rw [List.nodup_append]
      refine ⟨hnd, by simp, ?_⟩
      intro a ha hb
      simp only [List.mem_singleton] at hb
      subst hb
      exact hw ha
    · intro v
      simp only [List.map_append, List.map_cons, List.map_nil, List.mem_append,
        List.mem_singleton]
      rw [hmem v]
    · intro b hb
      simp only [List.mem_append, List.mem_singleton] at hb
      rcases hb with hb | hb
      · have hne : ¬ w = b.word := by
          intro e
          exact hw (by rw [e]; exact List.mem_map_of_mem _ hb)
        rw [hocc b hb, List.count_append]
        simp [List.count_singleton, hne]
      · subst hb
        simp [List.count_append, List.count_eq_zero_of_not_mem hseen]

theorem dictInv_foldl (toks : List (List Nat)) :
    ∀ (st : List wv_block × Nat) (seen : List (List Nat)), DictInv st.1 seen →
      DictInv (toks.foldl add_word st).1 (seen ++ toks) := by
  induction toks with
  | nil => intro st seen h; simpa using h
  | cons t toks ih =>
    intro st seen h
    rw [List.foldl_cons]
    have := ih (add_word st t) (seen ++ [t]) (dictInv_add st.1 st.2 seen t h)
    simpa using this

theorem encode_pass1_inv (data : List Nat) :
    DictInv (encode_pass1 data).1 (encode_tokens data) := by
  rw [encode_pass1_eq]
  have := dictInv_foldl (encode_tokens data) ([], 0) [] dictInv_nil
  simpa using this

/-! ## Sorting and `find` -/

theorem wv_sort_false (a b : wv_block) : wv_sort b a = false ↔ a.occurence ≥ b.occurence := by
  simp [wv_sort]

theorem sort_insert_perm (comp : wv_block → wv_block → Bool) (x : wv_block) (l : List wv_block) :
    (sort_insert comp x l).Perm (x :: l) := by
  induction l with
  | nil => simp [sort_insert]
  | cons y ys ih =>
    unfold sort_insert
    by_cases h : comp y x = true
    · simp only [h, if_true]
      exact (List.Perm.cons y ih).trans (List.Perm.swap x y ys)
    · simp [h]

theorem insertion_sort_perm (comp : wv_block → wv_block → Bool) (l : List wv_block) :
    (insertion_sort comp l).Perm l := by
  induction l with
  | nil => simp [insertion_sort]
  | cons x xs ih =>
    unfold insertion_sort
    exact (sort_insert_perm comp x _).trans (List.Perm.cons x ih)

theorem sort_insert_sorted (x : wv_block) (l : List wv_block)
    (h : l.Pairwise (fun a b => wv_sort b a = false)) :
    (sort_insert wv_sort x l).Pairwise (fun a b => wv_sort b a = false) := by
  induction l with
  | nil => simp [sort_insert]
  | cons y ys ih =>
    unfold sort_insert
    rw [List.pairwise_cons] at h
    by_cases hc : wv_sort y x = true
    · simp only [hc, if_true]
      rw [List.pairwise_cons]
      refine ⟨?_, ih h.2⟩
      intro z hz
      rcases List.mem_cons.mp ((sort_insert_perm wv_sort x ys).mem_iff.mp hz) with e | e
      · subst e
        simp only [wv_sort, decide_eq_true_eq, decide_eq_false_iff_not] at hc ⊢
        omega
      · exact h.1 z e
    · simp only [hc, Bool.false_eq_true, if_false]
      rw [List.pairwise_cons]
      refine ⟨?_, List.pairwise_cons.mpr h⟩
      intro z hz
      have hxy : x.occurence ≥ y.occurence := by
        simp only [wv_sort, decide_eq_true_eq] at hc
        omega
      rcases List.mem_cons.mp hz with e | e
      · subst e; exact (wv_sort_false _ _).mpr hxy
      · have := (wv_sort_false _ _).mp (h.1 z e)
        exact (wv_sort_false _ _).mpr (by omega)

theorem insertion_sort_sorted (l : List wv_block) :
    (insertion_sort wv_sort l).Pairwise (fun a b => wv_sort b a = false) := by
  induction l with
  | nil => simp [insertion_sort]
  | cons x xs ih => exact sort_insert_sorted x _ ih

/-- The insertion sort meets the contract of `std::sort` for the comparator `wv_sort`. -/
theorem insertion_sort_stdSort : StdSort wv_sort (insertion_sort wv_sort) :=
  ⟨insertion_sort_perm wv_sort, insertion_sort_sorted⟩

theorem dictInv_perm (ws ws2 : List wv_block) (seen : List (List Nat))
    (hp : ws2.Perm ws) (h : DictInv ws seen) : DictInv ws2 seen := by
  obtain ⟨hnd, hmem, hocc⟩ := h
  have hpm := hp.map (fun b => b.word)
  refine ⟨hpm.nodup_iff.mpr hnd, ?_, ?_⟩
  · intro w; rw [hpm.mem_iff]; exact hmem w
  · intro b hb; exact hocc b (hp.mem_iff.mp hb)

theorem encode_words_inv (sort : List wv_block → List wv_block) (hs : StdSort wv_sort sort)
    (data : List Nat) : DictInv (encode_words sort data) (encode_tokens data) :=
  dictInv_perm _ _ _ (hs.perm _) (encode_pass1_inv data)

/-- The comparator is a strict weak ordering, as `std::sort` requires of it. -/
theorem wv_sort_strict_weak :
    (∀ a, wv_sort a a = false) ∧
    (∀ a b c, wv_sort a b = true → wv_sort b c = true → wv_sort a c = true) ∧
    (∀ a b c, wv_sort a b = false → wv_sort b a = false → wv_sort b c = false →
      wv_sort c b = false → wv_sort a c = false ∧ wv_sort c a = false) := by
  refine ⟨?_, ?_, ?_⟩
  · intro a; simp [wv_sort]
  · intro a b c h1 h2
    simp only [wv_sort, decide_eq_true_eq] at h1 h2 ⊢
    omega
  · intro a b c h1 h2 h3 h4
    simp only [wv_sort, decide_eq_false_iff_not] at h1 h2 h3 h4 ⊢
    omega

theorem sorted_occurence_ge (sort : List wv_block → List wv_block)
    (hs : StdSort wv_sort sort) (l : List wv_block) (i j : Nat) (hij : i < j)
    (hj : j < (sort l).length) : (sort l)[i].occurence ≥ (sort l)[j].occurence :=
  (wv_sort_false _ _).mp (List.pairwise_iff_getElem.mp (hs.sorted l) i j (by omega) hj hij)

theorem find_from_spec (w : List Nat) (ws : List wv_block) :
    ∀ i0 : Nat, w ∈ ws.map (fun b => b.word) →
      ∃ (k : Nat) (b : wv_block),
        ws[k]? = some b ∧ b.word = w ∧ find_from w ws i0 = ((i0 + k : Nat) : Int) := by
  induction ws with
  | nil => intro i0 h; simp at h
  | cons c cs ih =>
    intro i0 h
    unfold find_from
    by_cases hc : c.word = w
    · exact ⟨0, c, by simp, hc, by simp [hc]⟩
    · have h2 : w ∈ cs.map (fun b => b.word) := by
        rw [List.map_cons, List.mem_cons] at h
        rcases h with e | e
        · exact absurd e.symm hc
        · exact e
      obtain ⟨k, b, hk, hb, hf⟩ := ih (i0 + 1) h2
      refine ⟨k + 1, b, by simpa using hk, hb, ?_⟩
      simp only [hc, if_false, hf]
      push_cast; ring

theorem find_spec (w : List Nat) (ws : List wv_block) (h : w ∈ ws.map (fun b => b.word)) :
    ∃ (k : Nat) (b : wv_block), ws[k]? = some b ∧ b.word = w ∧ find w ws = (k : Int) := by
  obtain ⟨k, b, hk, hb, hf⟩ := find_from_spec w ws 0 h
  exact ⟨k, b, hk, hb, by simpa [find] using hf⟩

theorem find_word_at (w : List Nat) (ws : List wv_block) (h : w ∈ ws.map (fun b => b.word)) :
    0 ≤ find w ws ∧ find w ws < ws.length ∧ word_at ws (find w ws) = w := by
  obtain ⟨k, b, hk, hb, hf⟩ := find_spec w ws h
  have hlt : k < ws.length := by
    rcases List.getElem?_eq_some_iff.mp hk with ⟨hlt, _⟩
    exact hlt
  rw [hf]
  refine ⟨by omega, by exact_mod_cast hlt, ?_⟩
  simp [word_at, hk, hb]

/-! ## Claims about the varint and the tokenizer -/

/-- C3: for every non-negative `R`, the varint decoder of the specification, run on the
bytes of `wordpos_to_string(R)`, returns `R` together with the full length of those bytes. -/
theorem wordpos_to_string_spec_decode (R : Nat) :
    spec_decode_varint (wordpos_to_string (R : Int)) =
      some (R, (wordpos_to_string (R : Int)).length) := by
  unfold spec_decode_varint wordpos_to_string
  rcases Nat.eq_zero_or_pos R with h | h
  · subst h
    simp [wordpos_loop, spec_decode_varint_from]
  · have hne : ¬ ((R : Int) = 0) := by omega
    simp only [hne, if_false, Int.toNat_ofNat]
    rw [spec_decode_wordpos_loop R R 0 0 0 h (le_refl R)]
    simp

/-- C10: in the token sequence of the tokenizing loop of `encode`, every token but the
last ends with the space byte, no token holds a space anywhere but as its last byte, and
the last token ends with a space exactly when the input does. -/
theorem encode_tokens_delimiters (data : List Nat) :
    (∀ k, (h : k + 1 < (encode_tokens data).length) →
        ((encode_tokens data)[k]).getLast? = some 32) ∧
    (∀ t ∈ encode_tokens data, 32 ∉ t.dropLast) ∧
    (∀ t, (encode_tokens data).getLast? = some t →
        (t.getLast? = some 32 ↔ data.getLast? = some 32)) := by
  refine ⟨?_, ?_, ?_⟩
  · intro k h
    have h2 : k + 1 < (split_words [] data).length := by rw [← encode_tokens_eq]; exact h
    have := split_words_inner_space data [] k h2
    simpa [encode_tokens_eq] using this
  · rw [encode_tokens_eq]
    exact split_words_space_last data [] (by simp)
  · intro t ht
    have hne := encode_tokens_ne_nil data t (List.mem_of_getLast?_eq_some ht)
    have := getLast?_flatten _ t ht hne
    rw [encode_tokens_flatten] at this
    rw [this]

/-! ## Claims about the dictionary and the index stream -/

/-- C1: for every input, every index emitted in the second pass of `encode` is a valid
position of the sorted word list (never the `-1` of `find`), and the words stored at the
emitted indexes, concatenated in order, are exactly the input. -/
theorem encode_indexes_reconstruct (sort : List wv_block → List wv_block)
    (hs : StdSort wv_sort sort) (data : List Nat) :
    (∀ k ∈ encode_indexes sort data, 0 ≤ k ∧ k < (encode_words sort data).length) ∧
    ((encode_indexes sort data).map (word_at (encode_words sort data))).flatten = data := by
  have hinv := encode_words_inv sort hs data
  have hfind : ∀ w ∈ encode_tokens data,
      0 ≤ find w (encode_words sort data) ∧
      find w (encode_words sort data) < (encode_words sort data).length ∧
      word_at (encode_words sort data) (find w (encode_words sort data)) = w :=
    fun w hw => find_word_at w _ ((hinv.2.1 w).mpr hw)
  rw [encode_indexes_eq]
  constructor
  · intro k hk
    obtain ⟨w, hw, rfl⟩ := List.mem_map.mp hk
    exact ⟨(hfind w hw).1, (hfind w hw).2.1⟩
  · rw [List.map_map]
    have : (encode_tokens data).map
        (word_at (encode_words sort data) ∘ fun w => find w (encode_words sort data)) =
        encode_tokens data := by
      conv_rhs => rw [← List.map_id (encode_tokens data)]
      apply List.map_congr_left
      intro w hw
      exact (hfind w hw).2.2
    rw [this, encode_tokens_flatten]

/-- Witness of C1 on the input `"a b a "` with the insertion sort. -/
theorem encode_indexes_reconstruct_witness :
    StdSort wv_sort (insertion_sort wv_sort) ∧
    (∀ k ∈ encode_indexes (insertion_sort wv_sort) (bytes "a b a "),
      0 ≤ k ∧ k < (encode_words (insertion_sort wv_sort) (bytes "a b a ")).length) ∧
    ((encode_indexes (insertion_sort wv_sort) (bytes "a b a ")).map
      (word_at (encode_words (insertion_sort wv_sort) (bytes "a b a ")))).flatten
      = bytes "a b a " :=
  ⟨insertion_sort_stdSort,
    encode_indexes_reconstruct (insertion_sort wv_sort) insertion_sort_stdSort (bytes "a b a ")⟩

/-- C4: for every input, the word list of `encode` after sorting has non-increasing
occurrence counts: `words[i].occurence >= words[j].occurence` whenever `i < j`. -/
theorem encode_words_sorted (sort : List wv_block → List wv_block)
    (hs : StdSort wv_sort sort) (data : List Nat) :
    ∀ i j, (hij : i < j) → (hj : j < (encode_words sort data).length) →
      (encode_words sort data)[i].occurence ≥ (encode_words sort data)[j].occurence := by
  intro i j hij hj
  exact sorted_occurence_ge sort hs (encode_pass1 data).1 i j hij hj

/-- Witness of C4 on the input `"b a a "` with the insertion sort. -/
theorem encode_words_sorted_witness :
    StdSort wv_sort (insertion_sort wv_sort) ∧
    ∀ i j, (hij : i < j) →
      (hj : j < (encode_words (insertion_sort wv_sort) (bytes "b a a ")).length) →
      (encode_words (insertion_sort wv_sort) (bytes "b a a "))[i].occurence ≥
        (encode_words (insertion_sort wv_sort) (bytes "b a a "))[j].occurence :=
  ⟨insertion_sort_stdSort,
    encode_words_sorted (insertion_sort wv_sort) insertion_sort_stdSort (bytes "b a a ")⟩

theorem find_lt_of_count_lt (sort : List wv_block → List wv_block)
    (hs : StdSort wv_sort sort) (data : List Nat) (a b : List Nat)
    (ha : a ∈ encode_tokens data) (hb : b ∈ encode_tokens data)
    (hab : (encode_tokens data).count a > (encode_tokens data).count b) :
    find a (encode_words sort data) < find b (encode_words sort data) := by
  obtain ⟨_, hmem, hocc⟩ := encode_words_inv sort hs data
  obtain ⟨ka, ba, hka, hba, hfa⟩ := find_spec a _ ((hmem a).mpr ha)
  obtain ⟨kb, bb, hkb, hbb, hfb⟩ := find_spec b _ ((hmem b).mpr hb)
  rw [hfa, hfb]
  obtain ⟨hla, hea⟩ := List.getElem?_eq_some_iff.mp hka
  obtain ⟨hlb, heb⟩ := List.getElem?_eq_some_iff.mp hkb
  have hoa := hocc ba (List.getElem?_mem hka)
  have hob := hocc bb (List.getElem?_mem hkb)
  rw [hba] at hoa
  rw [hbb] at hob
  by_contra hcon
  have hle : kb ≤ ka := by omega
  rcases Nat.eq_or_lt_of_le hle with e | e
  · subst e
    rw [hka] at hkb
    cases hkb
    rw [hba] at hbb
    subst hbb
    omega
  · have := sorted_occurence_ge sort hs (encode_pass1 data).1 kb ka e hla
    change (encode_words sort data)[kb].occurence ≥ (encode_words sort data)[ka].occurence
      at this
    rw [hea, heb, hoa, hob] at this
    omega

/-- C6: for every input and any two of its tokens `a` and `b`, if `a` occurs strictly more
often than `b` then the index `encode` emits for `a` is strictly smaller than the one it
emits for `b`. -/
theorem encode_index_order (sort : List wv_block → List wv_block)
    (hs : StdSort wv_sort sort) (data : List Nat) (a b : List Nat)
    (ha : a ∈ encode_tokens data) (hb : b ∈ encode_tokens data)
    (hab : (encode_tokens data).count a > (encode_tokens data).count b) :
    find a (encode_words sort data) < find b (encode_words sort data) :=
  find_lt_of_count_lt sort hs data a b ha hb hab

/-- Witness of C6 on the input `"b a a "`: the token `"a "` occurs twice, `"b "` once. -/
theorem encode_index_order_witness :
    StdSort wv_sort (insertion_sort wv_sort) ∧
    bytes "a " ∈ encode_tokens (bytes "b a a ") ∧
    bytes "b " ∈ encode_tokens (bytes "b a a ") ∧
    (encode_tokens (bytes "b a a ")).count (bytes "a ") >
      (encode_tokens (bytes "b a a ")).count (bytes "b ") ∧
    find (bytes "a ") (encode_words (insertion_sort wv_sort) (bytes "b a a ")) <
      find (bytes "b ") (encode_words (insertion_sort wv_sort) (bytes "b a a ")) :=
  ⟨insertion_sort_stdSort, by decide, by decide, by decide,
    encode_index_order (insertion_sort wv_sort) insertion_sort_stdSort (bytes "b a a ")
      (bytes "a ") (bytes "b ") (by decide) (by decide) (by decide)⟩

/-! ## The length field of `wml_to_string` -/

theorem wml_digits_append (n : Nat) :
    ∀ pos data, wml_digits n pos data = data ++ wml_digits n pos [] := by
  induction n with
  | zero => intro pos data; simp [wml_digits]
  | succ n ih =>
    intro pos data
    rw [wml_digits, ih, wml_digits, ih (pos / 256) ([] ++ _)]
    simp

theorem wml_digits_succ (n pos : Nat) :
    wml_digits (n + 1) pos [] = (pos % 256) :: wml_digits n (pos / 256) [] := by
  rw [wml_digits, wml_digits_append]
  simp

theorem wml_digits_length (n : Nat) : ∀ pos, (wml_digits n pos []).length = n := by
  induction n with
  | zero => intro pos; simp [wml_digits]
  | succ n ih => intro pos; rw [wml_digits_succ]; simp [ih]

theorem wml_digits_lt (n : Nat) : ∀ pos, ∀ b ∈ wml_digits n pos [], b < 256 := by
  induction n with
  | zero => intro pos b hb; simp [wml_digits] at hb
  | succ n ih =>
    intro pos b hb
    rw [wml_digits_succ, List.mem_cons] at hb
    rcases hb with e | e
    · subst e; exact Nat.mod_lt _ (by norm_num)
    · exact ih _ b e

theorem wml_digits_value (n : Nat) :
    ∀ pos, (wml_digits n pos []).foldr (fun b v => v * 256 + b) 0 = pos % 256 ^ n := by
  induction n with
  | zero => intro pos; simp [wml_digits, Nat.mod_one]
  | succ n ih =>
    intro pos
    rw [wml_digits_succ, List.foldr_cons, ih, pow_succ, Nat.mul_comm (256 ^ n) 256, Nat.mod_mul]
    ring

theorem wml_reverse_eq (data : List Nat) (n : Nat) :
    ∀ rev, n ≤ data.length → wml_reverse data n rev = rev ++ (data.take n).reverse := by
  induction n with
  | zero => intro rev _; simp [wml_reverse]
  | succ n ih =>
    intro rev h
    have hn : n < data.length := by omega
    have ht : data.take (n + 1) = data.take n ++ [data[n]] := by
      rw [List.take_succ, List.getElem?_eq_getElem hn]; rfl
    rw [wml_reverse, ih _ (by omega), ht, List.reverse_append]
    simp [List.getD_eq_getElem, hn]

theorem wml_to_string_eq (pos wml : Nat) :
    wml_to_string pos wml = (wml_digits (wml + 1) pos []).reverse := by
  unfold wml_to_string
  simp only
  rw [wml_reverse_eq _ _ [] (le_refl _)]
  simp

theorem wml_to_string_value (pos wml : Nat) :
    be_value (wml_to_string pos wml) = pos % 256 ^ (wml + 1) := by
  rw [wml_to_string_eq, be_value, List.foldl_reverse]
  exact wml_digits_value (wml + 1) pos

theorem max_word_length_foldl (ws : List wv_block) :
    ∀ init,
      (init ≤ ws.foldl (fun m b => if b.word.length ≥ m then b.word.length else m) init) ∧
      (∀ b ∈ ws, b.word.length ≤
        ws.foldl (fun m b => if b.word.length ≥ m then b.word.length else m) init) ∧
      (ws.foldl (fun m b => if b.word.length ≥ m then b.word.length else m) init = init ∨
        ∃ b ∈ ws, ws.foldl (fun m b => if b.word.length ≥ m then b.word.length else m) init
          = b.word.length) := by
  induction ws with
  | nil => intro init; simp
  | cons c cs ih =>
    intro init
    simp only [List.foldl_cons, List.mem_cons, forall_eq_or_imp, exists_eq_or_imp]
    obtain ⟨h1, h2, h3⟩ := ih (if c.word.length ≥ init then c.word.length else init)
    by_cases hc : c.word.length ≥ init
    · simp only [hc, if_true] at h1 h2 h3 ⊢
      refine ⟨by omega, ⟨h1, h2⟩, ?_⟩
      rcases h3 with e | ⟨b, hb, e⟩
      · exact Or.inr (Or.inl e)
      · exact Or.inr (Or.inr ⟨b, hb, e⟩)
    · simp only [hc, if_false] at h1 h2 h3 ⊢
      refine ⟨h1, ⟨by omega, h2⟩, ?_⟩
      rcases h3 with e | ⟨b, hb, e⟩
      · exact Or.inl e
      · exact Or.inr (Or.inr ⟨b, hb, e⟩)

theorem max_word_length_ge (ws : List wv_block) : ∀ b ∈ ws, b.word.length ≤ max_word_length ws :=
  (max_word_length_foldl ws 0).2.1

theorem max_word_length_le (ws : List wv_block) (n : Nat) (h : ∀ b ∈ ws, b.word.length ≤ n) :
    max_word_length ws ≤ n := by
  rcases (max_word_length_foldl ws 0).2.2 with e | ⟨b, hb, e⟩
  · unfold max_word_length; omega
  · unfold max_word_length; rw [e]; exact h b hb

theorem encode_words_length_le (sort : List wv_block → List wv_block)
    (hs : StdSort wv_sort sort) (data : List Nat) :
    ∀ b ∈ encode_words sort data, 1 ≤ b.word.length ∧ b.word.length ≤ data.length := by
  intro b hb
  have hmem : b.word ∈ encode_tokens data :=
    ((encode_words_inv sort hs data).2.1 b.word).mp (List.mem_map_of_mem _ hb)
  constructor
  · have := encode_tokens_ne_nil data _ hmem
    exact List.length_pos.mpr this
  · have := (List.sublist_flatten_of_mem hmem).length_le
    rwa [encode_tokens_flatten] at this

/-- The length field: `wml_to_string(L, wml)` has `wml + 1` bytes, each below 256, and
read as a big-endian number it is `L mod 256^(wml+1)`. -/
theorem wml_to_string_field (L wml : Nat) :
    (wml_to_string L wml).length = wml + 1 ∧
    (∀ b ∈ wml_to_string L wml, b < 256) ∧
    be_value (wml_to_string L wml) = L % 256 ^ (wml + 1) := by
  refine ⟨?_, ?_, wml_to_string_value L wml⟩
  · rw [wml_to_string_eq, List.length_reverse, wml_digits_length]
  · intro b hb
    rw [wml_to_string_eq, List.mem_reverse] at hb
    exact wml_digits_lt _ _ b hb

/-! ## Claims about the container -/

/-- C2 (the code at a failing input): whatever header precedes them, `decode` applied to
the dictionary and index bytes written for the input `"a"` does not return `"a"`; its
empty body returns nothing at all. -/
theorem decode_encode_no_result (header : List Nat) :
    decode (header ++
      encode_dictionary 0 (encode_words (insertion_sort wv_sort) (bytes "a")) ++
      encode_index_bytes (insertion_sort wv_sort) (bytes "a")) ≠ some (bytes "a") := by
  simp [decode]

/-! ## Claims about the header count and the empty input -/

theorem sort_nil (sort : List wv_block → List wv_block) (hs : StdSort wv_sort sort) :
    sort [] = [] :=
  List.perm_nil.mp (hs.perm [])

theorem encode_tokens_nil : encode_tokens [] = [] := by
  simp [encode_tokens, word_loop]

/-- C14: for the empty input, `encode` leaves the word count `wc` at 0, the word list
empty, writes no dictionary bytes (whatever `wml` is) and no index bytes. -/
theorem encode_empty_input (sort : List wv_block → List wv_block)
    (hs : StdSort wv_sort sort) :
    (encode_pass1 []).2 = 0 ∧
    encode_words sort [] = [] ∧
    (∀ wml, encode_dictionary wml (encode_words sort []) = []) ∧
    encode_indexes sort [] = [] ∧
    encode_index_bytes sort [] = [] := by
  have hw : encode_words sort [] = [] := by
    simp [encode_words, encode_pass1, word_loop, sort_nil sort hs]
  refine ⟨by simp [encode_pass1, word_loop], hw, ?_, ?_, ?_⟩
  · intro wml; rw [hw]; rfl
  · simp [encode_indexes, word_loop]
  · simp [encode_index_bytes, word_loop]

/-- Witness of C14 with the insertion sort. -/
theorem encode_empty_input_witness :
    StdSort wv_sort (insertion_sort wv_sort) ∧
    (encode_pass1 []).2 = 0 ∧
    encode_words (insertion_sort wv_sort) [] = [] ∧
    (∀ wml, encode_dictionary wml (encode_words (insertion_sort wv_sort) []) = []) ∧
    encode_indexes (insertion_sort wv_sort) [] = [] ∧
    encode_index_bytes (insertion_sort wv_sort) [] = [] :=
  ⟨insertion_sort_stdSort, encode_empty_input (insertion_sort wv_sort) insertion_sort_stdSort⟩

/-- C15: `wordpos_to_string(0)` is exactly the single byte `0x80`. -/
theorem wordpos_to_string_zero : wordpos_to_string 0 = [0x80] := by
  decide

/-- C20: for every input, every token of the tokenizing loop of `encode` is non-empty, so
every dictionary word has length at least 1, and for a non-empty input the maximum word
length handed to the logarithm is at least 1. -/
theorem encode_tokens_nonempty (sort : List wv_block → List wv_block)
    (hs : StdSort wv_sort sort) (data : List Nat) :
    (∀ t ∈ encode_tokens data, 1 ≤ t.length) ∧
    (∀ b ∈ encode_words sort data, 1 ≤ b.word.length) ∧
    (data ≠ [] → 1 ≤ max_word_length (encode_words sort data)) := by
  refine ⟨fun t ht => List.length_pos.mpr (encode_tokens_ne_nil data t ht),
    fun b hb => (encode_words_length_le sort hs data b hb).1, ?_⟩
  intro hne
  have htok : encode_tokens data ≠ [] := by
    intro h0
    have := encode_tokens_flatten data
    rw [h0] at this
    exact hne this.symm
  obtain ⟨t, ht⟩ := List.exists_mem_of_ne_nil _ htok
  have hmem := ((encode_words_inv sort hs data).2.1 t).mpr ht
  obtain ⟨b, hb, hbw⟩ := List.mem_map.mp hmem
  have h1 := (encode_words_length_le sort hs data b hb).1
  have h2 := max_word_length_ge _ b hb
  omega

/-- Witness of C20 on the input `"a b "`, which ends with a space. -/
theorem encode_tokens_nonempty_witness :
    StdSort wv_sort (insertion_sort wv_sort) ∧
    (∀ t ∈ encode_tokens (bytes "a b "), 1 ≤ t.length) ∧
    (∀ b ∈ encode_words (insertion_sort wv_sort) (bytes "a b "), 1 ≤ b.word.length) ∧
    (bytes "a b " ≠ [] →
      1 ≤ max_word_length (encode_words (insertion_sort wv_sort) (bytes "a b "))) :=
  ⟨insertion_sort_stdSort,
    encode_tokens_nonempty (insertion_sort wv_sort) insertion_sort_stdSort (bytes "a b ")⟩

/-! ## Claims about the length and the framing of the varint -/

theorem wordpos_loop_length (fuel : Nat) :
    ∀ pos, 0 < pos → pos ≤ fuel → (wordpos_loop fuel pos []).length = Nat.log 128 pos + 1 := by
  induction fuel with
  | zero => intro pos hp hf; omega
  | succ fuel ih =>
    intro pos hp hf
    rw [wordpos_loop_step fuel pos hp, List.length_cons]
    by_cases h : pos < 128
    · have h0 : pos / 128 = 0 := by omega
      rw [h0, wordpos_loop_zero, Nat.log_of_lt h]
      rfl
    · rw [ih (pos / 128) (by omega) (by omega),
        Nat.log_of_one_lt_of_le (by norm_num) (by omega : 128 ≤ pos)]

theorem wordpos_to_string_length (pos : Nat) :
    (wordpos_to_string (pos : Int)).length = Nat.log 128 pos + 1 := by
  unfold wordpos_to_string
  rcases Nat.eq_zero_or_pos pos with h | h
  · subst h; simp [wordpos_loop]
  · have hne : ¬ ((pos : Int) = 0) := by omega
    simp only [hne, if_false, Int.toNat_ofNat]
    exact wordpos_loop_length pos pos h (le_refl pos)

/-- C18: for every `pos >= 1`, `wordpos_to_string(pos)` has exactly `k` bytes with `k`
the smallest positive integer such that `pos < 128^k`; hence the encoded length never
decreases when `pos` grows, and the indexes 0..127 take one byte. -/
theorem wordpos_to_string_minimal_length :
    (∀ pos : Nat, 1 ≤ pos →
      1 ≤ (wordpos_to_string (pos : Int)).length ∧
      pos < 128 ^ (wordpos_to_string (pos : Int)).length ∧
      ∀ k, 1 ≤ k → pos < 128 ^ k → (wordpos_to_string (pos : Int)).length ≤ k) ∧
    (∀ p q : Nat, p ≤ q →
      (wordpos_to_string (p : Int)).length ≤ (wordpos_to_string (q : Int)).length) ∧
    (∀ p : Nat, p ≤ 127 → (wordpos_to_string (p : Int)).length = 1) := by
  refine ⟨?_, ?_, ?_⟩
  · intro pos hpos
    rw [wordpos_to_string_length]
    refine ⟨by omega, Nat.lt_pow_succ_log_self (by norm_num) pos, ?_⟩
    intro k _ hk
    have := Nat.log_lt_of_lt_pow (by omega) hk
    omega
  · intro p q hpq
    rw [wordpos_to_string_length, wordpos_to_string_length]
    have := Nat.log_mono_right (b := 128) hpq
    omega
  · intro p hp
    rw [wordpos_to_string_length, Nat.log_of_lt (by omega)]

theorem spec_decode_varint_from_append (l rest : List Nat) :
    ∀ shift acc n r, spec_decode_varint_from l shift acc n = some r →
      spec_decode_varint_from (l ++ rest) shift acc n = some r := by
  induction l with
  | nil => intro shift acc n r h; simp [spec_decode_varint_from] at h
  | cons b bs ih =>
    intro shift acc n r h
    rw [List.cons_append]
    unfold spec_decode_varint_from at h ⊢
    by_cases hb : b / 128 % 2 = 1
    · simpa [hb] using h
    · simp only [hb, if_false] at h ⊢
      exact ih _ _ _ _ h

theorem spec_decode_varint_wordpos (R : Nat) (rest : List Nat) :
    spec_decode_varint (wordpos_to_string (R : Int) ++ rest) =
      some (R, (wordpos_to_string (R : Int)).length) := by
  unfold spec_decode_varint
  apply spec_decode_varint_from_append
  unfold wordpos_to_string
  rcases Nat.eq_zero_or_pos R with h | h
  · subst h
    simp [wordpos_loop, spec_decode_varint_from]
  · have hne : ¬ ((R : Int) = 0) := by omega
    simp only [hne, if_false, Int.toNat_ofNat]
    rw [spec_decode_wordpos_loop R R 0 0 0 h (le_refl R)]
    simp

theorem spec_decode_stream_wordpos (rs : List Nat) :
    spec_decode_stream rs.length ((rs.map (fun r : Nat => wordpos_to_string (r : Int))).flatten) =
      some (rs, []) := by
  induction rs with
  | nil => simp [spec_decode_stream]
  | cons r rs ih =>
    simp only [List.map_cons, List.flatten_cons, List.length_cons]
    unfold spec_decode_stream
    rw [spec_decode_varint_wordpos]
    simp only [List.drop_left]
    rw [ih]

/-- C17: for every list of non-negative ranks, reading as many varints as the list has
entries, with the decoder of the specification, from the concatenation of their
`wordpos_to_string` bytes gives back the list and leaves no byte unread; in particular
the index section written by `encode` parses back into the indexes emitted. -/
theorem index_stream_parse (sort : List wv_block → List wv_block)
    (hs : StdSort wv_sort sort) (data : List Nat) :
    (∀ rs : List Nat,
      spec_decode_stream rs.length ((rs.map (fun r : Nat => wordpos_to_string (r : Int))).flatten) =
        some (rs, [])) ∧
    spec_decode_stream (encode_indexes sort data).length (encode_index_bytes sort data) =
      some ((encode_indexes sort data).map Int.toNat, []) ∧
    (∀ k ∈ encode_indexes sort data, ((k.toNat : Nat) : Int) = k) := by
  have hnn : ∀ k ∈ encode_indexes sort data, ((k.toNat : Nat) : Int) = k := by
    intro k hk
    rw [encode_indexes_eq] at hk
    obtain ⟨w, hw, rfl⟩ := List.mem_map.mp hk
    have := (find_word_at w _ (((encode_words_inv sort hs data).2.1 w).mpr hw)).1
    omega
  refine ⟨spec_decode_stream_wordpos, ?_, hnn⟩
  have hb : encode_index_bytes sort data =
      (((encode_indexes sort data).map Int.toNat).map
        (fun r : Nat => wordpos_to_string (r : Int))).flatten := by
    rw [encode_index_bytes_eq, List.map_map]
    congr 1
    apply List.map_congr_left
    intro k hk
    simp only [Function.comp_apply]
    rw [hnn k hk]
  have := spec_decode_stream_wordpos ((encode_indexes sort data).map Int.toNat)
  rw [List.length_map] at this
  rw [hb]
  exact this

/-- Witness of C17 on the input `"b a a "` with the insertion sort. -/
theorem index_stream_parse_witness :
    StdSort wv_sort (insertion_sort wv_sort) ∧
    (∀ rs : List Nat,
      spec_decode_stream rs.length ((rs.map (fun r : Nat => wordpos_to_string (r : Int))).flatten) =
        some (rs, [])) ∧
    spec_decode_stream (encode_indexes (insertion_sort wv_sort) (bytes "b a a ")).length
        (encode_index_bytes (insertion_sort wv_sort) (bytes "b a a ")) =
      some ((encode_indexes (insertion_sort wv_sort) (bytes "b a a ")).map Int.toNat, []) ∧
    (∀ k ∈ encode_indexes (insertion_sort wv_sort) (bytes "b a a "),
      ((k.toNat : Nat) : Int) = k) :=
  ⟨insertion_sort_stdSort,
    index_stream_parse (insertion_sort wv_sort) insertion_sort_stdSort (bytes "b a a ")⟩

/-! ## Claims about the number of tokens -/

theorem getLast?_append_cons_eq (cur : List Nat) (c : Nat) (cs : List Nat) :
    (cur ++ c :: cs).getLast? = (c :: cs).getLast? := by
  rw [List.getLast?_append, List.getLast?_eq_getLast (c :: cs) (by simp)]
  rfl

theorem split_words_length (rest : List Nat) :
    ∀ cur, 32 ∉ cur →
      (split_words cur rest).length =
        rest.count 32 +
          (if cur ++ rest ≠ [] ∧ (cur ++ rest).getLast? ≠ some 32 then 1 else 0) := by
  induction rest with
  | nil =>
    intro cur hcur
    rw [split_words_nil, List.append_nil]
    by_cases h : cur = []
    · simp [h]
    · have hl : cur.getLast? ≠ some 32 :=
        fun e => hcur (List.mem_of_getLast?_eq_some e)
      simp [h, hl]
  | cons c cs ih =>
    intro cur hcur
    rw [split_words_cons]
    have hne : cur ++ c :: cs ≠ [] := by simp
    by_cases hc : c = 32
    · subst hc
      simp only [if_true, List.length_cons]
      rw [ih [] (by simp), List.count_cons_self, getLast?_append_cons_eq]
      simp only [List.nil_append]
      cases cs with
      | nil => simp
      | cons d ds => simp [List.getLast?_cons_cons]; omega
    · simp only [hc, if_false]
      have hcur2 : 32 ∉ cur ++ [c] := by
        simp only [List.mem_append, List.mem_singleton, not_or]
        exact ⟨hcur, fun h => hc h.symm⟩
      rw [ih (cur ++ [c]) hcur2, List.count_cons_of_ne (fun h => hc h.symm)]
      simp

theorem split_words_no_space (rest : List Nat) (hr : 32 ∉ rest) :
    ∀ cur, split_words cur rest = if cur ++ rest = [] then [] else [cur ++ rest] := by
  induction rest with
  | nil => intro cur; simp [split_words_nil]
  | cons c cs ih =>
    intro cur
    have hc : ¬ c = 32 := fun h => hr (by simp [h])
    rw [split_words_cons]
    simp only [hc, if_false]
    rw [ih (fun h => hr (List.mem_cons_of_mem _ h))]
    simp

theorem split_words_lone_space (rest : List Nat) :
    ∀ cur i, (h : i < rest.length) → rest[i] = 32 →
      (if i = 0 then cur = [] else rest[i - 1]? = some 32) →
      (split_words cur rest)[(rest.take i).count 32]? = some [32] := by
  induction rest with
  | nil => intro cur i h; simp at h
  | cons c cs ih =>
    intro cur i h hi hprev
    rw [split_words_cons]
    cases i with
    | zero =>
      simp only [List.getElem_cons_zero] at hi
      simp only [if_true] at hprev
      simp [hi, hprev]
    | succ i =>
      simp only [List.getElem_cons_succ] at hi
      simp only [Nat.add_one_ne_zero, if_false, Nat.add_sub_cancel] at hprev
      have hi2 : i < cs.length := by simpa using h
      by_cases hc : c = 32
      · subst hc
        simp only [if_true, List.take_succ_cons, List.count_cons_self, List.getElem?_cons_succ]
        apply ih [] i hi2 hi
        cases i with
        | zero => simp
        | succ j => simpa using hprev
      · simp only [hc, if_false, List.take_succ_cons]
        rw [List.count_cons_of_ne (fun h => hc h.symm)]
        apply ih (cur ++ [c]) i hi2 hi
        cases i with
        | zero => simp at hprev; exact absurd hprev hc
        | succ j => simpa using hprev

/-- C19: for every input, the number of tokens of the tokenizing loop of `encode` is the
number of space bytes plus one if the input is non-empty and does not end with a space;
the empty input gives no token, a non-empty input without a space gives the one token
equal to the input, and a space that is first in the input or directly follows another
space gives a token made of that space alone. -/
theorem encode_tokens_count (data : List Nat) :
    (encode_tokens data).length =
      data.count 32 + (if data ≠ [] ∧ data.getLast? ≠ some 32 then 1 else 0) ∧
    encode_tokens [] = [] ∧
    (data ≠ [] → 32 ∉ data → encode_tokens data = [data]) ∧
    (∀ i, (h : i < data.length) → data[i] = 32 → (i = 0 ∨ data[i - 1]? = some 32) →
      (encode_tokens data)[(data.take i).count 32]? = some [32]) := by
  refine ⟨?_, encode_tokens_nil, ?_, ?_⟩
  · rw [encode_tokens_eq, split_words_length data [] (by simp)]
    simp
  · intro hne hsp
    rw [encode_tokens_eq, split_words_no_space data hsp]
    simp [hne]
  · intro i h hi hprev
    rw [encode_tokens_eq]
    apply split_words_lone_space data [] i h hi
    by_cases h0 : i = 0
    · simp [h0]
    · simp only [h0, if_false]
      rcases hprev with e | e
      · exact absurd e h0
      · exact e

/-! ## The order of words of equal count -/

theorem sort_insert_filter (x : wv_block) (c : Int) (l : List wv_block) :
    (sort_insert wv_sort x l).filter (fun b => decide (b.occurence = c)) =
      (x :: l).filter (fun b => decide (b.occurence = c)) := by
  induction l with
  | nil => simp [sort_insert]
  | cons y ys ih =>
    unfold sort_insert
    by_cases hc : wv_sort y x = true
    · have hyx : y.occurence > x.occurence := by simpa [wv_sort] using hc
      simp only [hc, if_true]
      rw [List.filter_cons, ih]
      by_cases hx : x.occurence = c
      · have hy : ¬ y.occurence = c := by omega
        simp [List.filter_cons, hx, hy]
      · simp [List.filter_cons, hx]
    · simp only [hc, Bool.false_eq_true, if_false]

/-- The insertion sort keeps entries of equal count in their original order. -/
theorem insertion_sort_stable : StableSort (insertion_sort wv_sort) := by
  intro l c
  induction l with
  | nil => simp [insertion_sort]
  | cons x xs ih =>
    unfold insertion_sort
    rw [sort_insert_filter, List.filter_cons, List.filter_cons, ih]

/-- Two lists sorted by non-increasing count with the same entries, in the same order,
for every count are equal. -/
theorem sorted_filter_unique (A : List wv_block) :
    ∀ B : List wv_block,
      A.Pairwise (fun a b => wv_sort b a = false) →
      B.Pairwise (fun a b => wv_sort b a = false) →
      (∀ c : Int, A.filter (fun b => decide (b.occurence = c)) =
        B.filter (fun b => decide (b.occurence = c))) →
      A = B := by
  induction A with
  | nil =>
    intro B _ _ h
    cases B with
    | nil => rfl
    | cons b B =>
      have := h b.occurence
      simp [List.filter_cons] at this
  | cons a A ih =>
    intro B hA hB h
    cases B with
    | nil =>
      have := h a.occurence
      simp [List.filter_cons] at this
    | cons b B =>
      rw [List.pairwise_cons] at hA hB
      have ha : a ∈ (b :: B) := by
        have hm : a ∈ (a :: A).filter (fun x => decide (x.occurence = a.occurence)) := by
          simp [List.filter_cons]
        rw [h a.occurence] at hm
        exact (List.mem_filter.mp hm).1
      have hb : b ∈ (a :: A) := by
        have hm : b ∈ (b :: B).filter (fun x => decide (x.occurence = b.occurence)) := by
          simp [List.filter_cons]
        rw [← h b.occurence] at hm
        exact (List.mem_filter.mp hm).1
      have hab : a.occurence ≤ b.occurence := by
        rcases List.mem_cons.mp ha with e | e
        · rw [e]
        · exact (wv_sort_false _ _).mp (hB.1 a e)
      have hba : b.occurence ≤ a.occurence := by
        rcases List.mem_cons.mp hb with e | e
        · rw [e]
        · exact (wv_sort_false _ _).mp (hA.1 b e)
      have hocc : b.occurence = a.occurence := by omega
      have hhead : a = b := by
        have := h a.occurence
        simp only [List.filter_cons, hocc, decide_True, if_true] at this
        exact (List.cons.inj this).1
      subst hhead
      congr 1
      apply ih B hA.2 hB.2
      intro c
      have := h c
      by_cases hc : a.occurence = c
      · simp only [List.filter_cons, hc, decide_True, if_true] at this
        exact (List.cons.inj this).2
      · simpa only [List.filter_cons, hc, decide_False, Bool.false_eq_true, if_false] using this

/-- A conforming sort that keeps ties in place can only return what the insertion sort
returns. -/
theorem stable_sort_unique (sort : List wv_block → List wv_block)
    (hs : StdSort wv_sort sort) (hst : StableSort sort) (l : List wv_block) :
    sort l = insertion_sort wv_sort l :=
  sorted_filter_unique _ _ (hs.sorted l) (insertion_sort_sorted l)
    (fun c => (hst l c).trans (insertion_sort_stable l c).symm)

theorem add_word_words (ws : List wv_block) (n : Nat) (seen : List (List Nat))
    (w : List Nat) (h : DictInv ws seen) :
    (add_word (ws, n) w).1.map (fun b => b.word) =
      if w ∈ seen then ws.map (fun b => b.word) else ws.map (fun b => b.word) ++ [w] := by
  obtain ⟨hnd, hmem, _⟩ := h
  unfold add_word
  by_cases hw : w ∈ seen
  · have hw2 := (hmem w).mpr hw
    rw [bump_word_some w ws hw2 hnd]
    simp only [hw, if_true, List.map_map]
    apply List.map_congr_left
    intro x _
    by_cases e : x.word = w <;> simp [e]
  · have hw2 : w ∉ ws.map (fun b => b.word) := fun hm => hw ((hmem w).mp hm)
    rw [(bump_word_none w ws).mpr hw2]
    simp [hw]

theorem first_occurrence_lt (w : List Nat) (l : List (List Nat)) (h : w ∈ l) :
    first_occurrence w l < l.length := by
  induction l with
  | nil => simp at h
  | cons t ts ih =>
    unfold first_occurrence
    by_cases e : t = w
    · simp [e]
    · have : w ∈ ts := by
        rcases List.mem_cons.mp h with e2 | e2
        · exact absurd e2.symm e
        · exact e2
      simp only [e, if_false, List.length_cons]
      have := ih this
      omega

theorem first_occurrence_append_mem (w : List Nat) (l l2 : List (List Nat)) (h : w ∈ l) :
    first_occurrence w (l ++ l2) = first_occurrence w l := by
  induction l with
  | nil => simp at h
  | cons t ts ih =>
    rw [List.cons_append]
    unfold first_occurrence
    by_cases e : t = w
    · simp [e]
    · have : w ∈ ts := by
        rcases List.mem_cons.mp h with e2 | e2
        · exact absurd e2.symm e
        · exact e2
      simp only [e, if_false, ih this]

theorem first_occurrence_append_new (w : List Nat) (l : List (List Nat)) (h : w ∉ l) :
    first_occurrence w (l ++ [w]) = l.length := by
  induction l with
  | nil => simp [first_occurrence]
  | cons t ts ih =>
    rw [List.cons_append]
    unfold first_occurrence
    have e : ¬ t = w := fun e => h (by simp [e])
    simp only [e, if_false, List.length_cons]
    rw [ih (fun hm => h (List.mem_cons_of_mem _ hm))]

/-- The words of the first pass stand in the order of their first occurrence. -/
theorem first_occurrence_foldl (toks : List (List Nat)) :
    ∀ (st : List wv_block × Nat) (seen : List (List Nat)), DictInv st.1 seen →
      (st.1.map (fun b => b.word)).Pairwise
        (fun a b => first_occurrence a seen < first_occurrence b seen) →
      ((toks.foldl add_word st).1.map (fun b => b.word)).Pairwise
        (fun a b => first_occurrence a (seen ++ toks) < first_occurrence b (seen ++ toks)) := by
  induction toks with
  | nil => intro st seen _ h; simpa using h
  | cons t toks ih =>
    intro st seen hinv h
    rw [List.foldl_cons]
    have hinv2 := dictInv_add st.1 st.2 seen t hinv
    have hstep : ((add_word st t).1.map (fun b => b.word)).Pairwise
        (fun a b => first_occurrence a (seen ++ [t]) < first_occurrence b (seen ++ [t])) := by
      have hw := add_word_words st.1 st.2 seen t hinv
      have hold : (st.1.map (fun b => b.word)).Pairwise
          (fun a b => first_occurrence a (seen ++ [t]) < first_occurrence b (seen ++ [t])) := by
        refine h.imp_of_mem ?_
        intro a b ha hb hab
        rw [first_occurrence_append_mem a seen [t] ((hinv.2.1 a).mp ha),
          first_occurrence_append_mem b seen [t] ((hinv.2.1 b).mp hb)]
        exact hab
      change ((add_word (st.1, st.2) t).1.map (fun b => b.word)).Pairwise _
      rw [hw]
      by_cases ht : t ∈ seen
      · simpa [ht] using hold
      · simp only [ht, if_false]
        rw [List.pairwise_append]
        refine ⟨hold, by simp, ?_⟩
        intro a ha b hb
        rw [List.mem_singleton] at hb
        subst hb
        have ha2 := (hinv.2.1 a).mp ha
        rw [first_occurrence_append_mem a seen [b] ha2, first_occurrence_append_new b seen ht]
        exact first_occurrence_lt a seen ha2
    have := ih (add_word st t) (seen ++ [t]) hinv2 hstep
    simpa using this

theorem encode_pass1_first_occurrence (data : List Nat) :
    (encode_pass1 data).1.Pairwise (fun a b =>
      first_occurrence a.word (encode_tokens data) <
        first_occurrence b.word (encode_tokens data)) := by
  have := first_occurrence_foldl (encode_tokens data) ([], 0) [] dictInv_nil (by simp)
  rw [← encode_pass1_eq] at this
  simp only [List.nil_append] at this
  rw [List.pairwise_map] at this
  exact this

theorem stable_tie_order (sort : List wv_block → List wv_block)
    (hst : StableSort sort) (data : List Nat) (i j : Nat) (hij : i < j)
    (hj : j < (encode_words sort data).length)
    (heq : (encode_words sort data)[i].occurence = (encode_words sort data)[j].occurence) :
    first_occurrence (encode_words sort data)[i].word (encode_tokens data) <
      first_occurrence (encode_words sort data)[j].word (encode_tokens data) := by
  have h1 := (encode_pass1_first_occurrence data).filter
    (fun b => decide (b.occurence = (encode_words sort data)[j].occurence))
  rw [← hst] at h1
  rw [List.pairwise_filter] at h1
  have := List.pairwise_iff_getElem.mp h1 i j (by
    unfold encode_words at hj; omega) (by unfold encode_words at hj; exact hj) hij
  exact this heq rfl

/-! ## The example of the specification -/

theorem example_words :
    encode_words (insertion_sort wv_sort) (bytes "the cat sat on the mat the cat ran") =
      [⟨bytes "the ", 3, 0⟩, ⟨bytes "cat ", 2, 0⟩, ⟨bytes "sat ", 1, 0⟩,
        ⟨bytes "on ", 1, 0⟩, ⟨bytes "mat ", 1, 0⟩, ⟨bytes "ran", 1, 0⟩] := by
  decide

theorem example_tokens :
    encode_tokens (bytes "the cat sat on the mat the cat ran") =
      [bytes "the ", bytes "cat ", bytes "sat ", bytes "on ", bytes "the ", bytes "mat ",
        bytes "the ", bytes "cat ", bytes "ran"] := by
  decide

/-- For every conforming sort the ranks of the example are fixed up to the order of the
four words that occur once. -/
theorem example_indexes (sort : List wv_block → List wv_block) (hs : StdSort wv_sort sort) :
    ∃ a b c d : Int,
      encode_indexes sort (bytes "the cat sat on the mat the cat ran") =
        [0, 1, a, b, 0, c, 0, 1, d] ∧
      (2 ≤ a ∧ a ≤ 5) ∧ (2 ≤ b ∧ b ≤ 5) ∧ (2 ≤ c ∧ c ≤ 5) ∧ (2 ≤ d ∧ d ≤ 5) ∧
      a ≠ b ∧ a ≠ c ∧ a ≠ d ∧ b ≠ c ∧ b ≠ d ∧ c ≠ d := by
  have hinv := encode_words_inv sort hs (bytes "the cat sat on the mat the cat ran")
  have hlen : ((encode_words sort (bytes "the cat sat on the mat the cat ran")).length : Int)
      = 6 := by
    unfold encode_words
    rw [(hs.perm _).length_eq]
    decide
  have hfind : ∀ w ∈ encode_tokens (bytes "the cat sat on the mat the cat ran"),
      0 ≤ find w (encode_words sort (bytes "the cat sat on the mat the cat ran")) ∧
      find w (encode_words sort (bytes "the cat sat on the mat the cat ran")) <
        (encode_words sort (bytes "the cat sat on the mat the cat ran")).length ∧
      word_at (encode_words sort (bytes "the cat sat on the mat the cat ran"))
        (find w (encode_words sort (bytes "the cat sat on the mat the cat ran"))) = w :=
    fun w hw => find_word_at w _ ((hinv.2.1 w).mpr hw)
  have hlt := find_lt_of_count_lt sort hs (bytes "the cat sat on the mat the cat ran")
  have h1 := hfind (bytes "the ") (by decide)
  have h2 := hfind (bytes "cat ") (by decide)
  have h3 := hfind (bytes "sat ") (by decide)
  have h4 := hfind (bytes "on ") (by decide)
  have h5 := hfind (bytes "mat ") (by decide)
  have h6 := hfind (bytes "ran") (by decide)
  have o12 := hlt (bytes "the ") (bytes "cat ") (by decide) (by decide) (by decide)
  have o23 := hlt (bytes "cat ") (bytes "sat ") (by decide) (by decide) (by decide)
  have o24 := hlt (bytes "cat ") (bytes "on ") (by decide) (by decide) (by decide)
  have o25 := hlt (bytes "cat ") (bytes "mat ") (by decide) (by decide) (by decide)
  have o26 := hlt (bytes "cat ") (bytes "ran") (by decide) (by decide) (by decide)
  have hne : ∀ u v : List Nat, u ≠ v →
      word_at (encode_words sort (bytes "the cat sat on the mat the cat ran"))
        (find u (encode_words sort (bytes "the cat sat on the mat the cat ran"))) = u →
      word_at (encode_words sort (bytes "the cat sat on the mat the cat ran"))
        (find v (encode_words sort (bytes "the cat sat on the mat the cat ran"))) = v →
      find u (encode_words sort (bytes "the cat sat on the mat the cat ran")) ≠
        find v (encode_words sort (bytes "the cat sat on the mat the cat ran")) := by
    intro u v huv hu hv e
    rw [e, hv] at hu
    exact huv hu.symm
  have d34 := hne (bytes "sat ") (bytes "on ") (by decide) h3.2.2 h4.2.2
  have d35 := hne (bytes "sat ") (bytes "mat ") (by decide) h3.2.2 h5.2.2
  have d36 := hne (bytes "sat ") (bytes "ran") (by decide) h3.2.2 h6.2.2
  have d45 := hne (bytes "on ") (bytes "mat ") (by decide) h4.2.2 h5.2.2
  have d46 := hne (bytes "on ") (bytes "ran") (by decide) h4.2.2 h6.2.2
  have d56 := hne (bytes "mat ") (bytes "ran") (by decide) h5.2.2 h6.2.2
  rw [encode_indexes_eq, example_tokens]
  simp only [List.map_cons, List.map_nil]
  generalize find (bytes "the ") (encode_words sort (bytes "the cat sat on the mat the cat ran"))
    = f1 at *
  generalize find (bytes "cat ") (encode_words sort (bytes "the cat sat on the mat the cat ran"))
    = f2 at *
  generalize find (bytes "sat ") (encode_words sort (bytes "the cat sat on the mat the cat ran"))
    = f3 at *
  generalize find (bytes "on ") (encode_words sort (bytes "the cat sat on the mat the cat ran"))
    = f4 at *
  generalize find (bytes "mat ") (encode_words sort (bytes "the cat sat on the mat the cat ran"))
    = f5 at *
  generalize find (bytes "ran") (encode_words sort (bytes "the cat sat on the mat the cat ran"))
    = f6 at *
  have e1 : f1 = 0 := by omega
  have e2 : f2 = 1 := by omega
  subst e1 e2
  exact ⟨f3, f4, f5, f6, rfl, ⟨by omega, by omega⟩, ⟨by omega, by omega⟩,
    ⟨by omega, by omega⟩, ⟨by omega, by omega⟩, d34, d35, d36, d45, d46, d56⟩

/-- C13 (counterexample): no conforming sort makes the index stream of
`"the cat sat on the mat the cat ran"` begin `0,1,2,3,0,1,4,0`: the sixth token is
`"mat "`, whose rank is at least 2. -/
theorem index_stream_example_counterexample :
    ¬ ∃ sort : List wv_block → List wv_block, StdSort wv_sort sort ∧
      (encode_indexes sort (bytes "the cat sat on the mat the cat ran")).take 8 =
        [0, 1, 2, 3, 0, 1, 4, 0] := by
  rintro ⟨sort, hs, h⟩
  obtain ⟨a, b, c, d, he, _, _, hc, _⟩ := example_indexes sort hs
  rw [he] at h
  simp only [List.take_succ_cons, List.take_zero, List.cons.injEq, and_true, true_and] at h
  omega

/-- C13 (amended): for the input `"the cat sat on the mat the cat ran"` the index stream of
`encode`, one rank per token in token order, is `0,1,a,b,0,c,0,1,d` with `a, b, c, d` the
distinct ranks in 2..5 of `"sat "`, `"on "`, `"mat "`, `"ran"`; it is `0,1,2,3,0,4,0,1,5`
when the sort keeps words of equal count in first-occurrence order. -/
theorem index_stream_example (sort : List wv_block → List wv_block)
    (hs : StdSort wv_sort sort) :
    (∃ a b c d : Int,
      encode_indexes sort (bytes "the cat sat on the mat the cat ran") =
        [0, 1, a, b, 0, c, 0, 1, d] ∧
      (2 ≤ a ∧ a ≤ 5) ∧ (2 ≤ b ∧ b ≤ 5) ∧ (2 ≤ c ∧ c ≤ 5) ∧ (2 ≤ d ∧ d ≤ 5) ∧
      a ≠ b ∧ a ≠ c ∧ a ≠ d ∧ b ≠ c ∧ b ≠ d ∧ c ≠ d) ∧
    (StableSort sort →
      encode_indexes sort (bytes "the cat sat on the mat the cat ran") =
        [0, 1, 2, 3, 0, 4, 0, 1, 5]) := by
  refine ⟨example_indexes sort hs, ?_⟩
  intro hst
  have hw : encode_words sort (bytes "the cat sat on the mat the cat ran") =
      encode_words (insertion_sort wv_sort) (bytes "the cat sat on the mat the cat ran") :=
    stable_sort_unique sort hs hst _
  rw [encode_indexes_eq, hw, example_words, example_tokens]
  decide

/-- Witness of C13 (amended) with the insertion sort. -/
theorem index_stream_example_witness :
    StdSort wv_sort (insertion_sort wv_sort) ∧
    (∃ a b c d : Int,
      encode_indexes (insertion_sort wv_sort) (bytes "the cat sat on the mat the cat ran") =
        [0, 1, a, b, 0, c, 0, 1, d] ∧
      (2 ≤ a ∧ a ≤ 5) ∧ (2 ≤ b ∧ b ≤ 5) ∧ (2 ≤ c ∧ c ≤ 5) ∧ (2 ≤ d ∧ d ≤ 5) ∧
      a ≠ b ∧ a ≠ c ∧ a ≠ d ∧ b ≠ c ∧ b ≠ d ∧ c ≠ d) ∧
    (StableSort (insertion_sort wv_sort) →
      encode_indexes (insertion_sort wv_sort) (bytes "the cat sat on the mat the cat ran") =
        [0, 1, 2, 3, 0, 4, 0, 1, 5]) :=
  ⟨insertion_sort_stdSort,
    index_stream_example (insertion_sort wv_sort) insertion_sort_stdSort⟩

/-! ## The size bound of the header comment -/

theorem find_getElem (ws : List wv_block) (hnd : (ws.map (fun b => b.word)).Nodup)
    (k : Nat) (hk : k < ws.length) : find ws[k].word ws = (k : Int) := by
  obtain ⟨k2, b, hk2, hb, hf⟩ :=
    find_spec ws[k].word ws (List.mem_map_of_mem _ (List.getElem_mem hk))
  obtain ⟨hlt, he⟩ := List.getElem?_eq_some_iff.mp hk2
  have hlt2 : k2 < (ws.map (fun b => b.word)).length := by simpa using hlt
  have hk3 : k < (ws.map (fun b => b.word)).length := by simpa using hk
  have h1 : (ws.map (fun b => b.word))[k2] = (ws.map (fun b => b.word))[k] := by
    simp only [List.getElem_map]
    rw [he, hb]
  have := (hnd.getElem_inj_iff).mp h1
  rw [hf, this]

theorem script_129_facts :
    (encode_pass1 script_129).2 = 129 ∧ (encode_pass1 script_129).1.length = 129 ∧
    ∀ t ∈ encode_tokens script_129, t.length = 2 := by
  set_option maxRecDepth 100000 in decide

theorem wml_to_string_length (pos wml : Nat) : (wml_to_string pos wml).length = wml + 1 := by
  rw [wml_to_string_eq, List.length_reverse, wml_digits_length]

/-- C16 (the code at a failing input): in the script of 129 different two-byte words,
whatever conforming sort and whatever `wml`, some word costs more than
`L + log256(L) + log256(W)` bytes with `log256` read as a count of base-256 digits: the
word at rank 128 takes a two-byte reference, so it costs at least 2 + 1 + 2 bytes against
the bound 2 + 1 + 1. -/
theorem word_cost_exceeds_comment_bound :
    ¬ ∃ sort : List wv_block → List wv_block, StdSort wv_sort sort ∧ ∃ wml : Nat,
      ∀ w ∈ encode_tokens script_129,
        word_cost wml (encode_words sort script_129) w ≤
          w.length + digits256 w.length + digits256 (encode_pass1 script_129).2 := by
  rintro ⟨sort, hs, wml, h⟩
  obtain ⟨hwc, hlen, htok⟩ := script_129_facts
  have hinv := encode_words_inv sort hs script_129
  have hl : (encode_words sort script_129).length = 129 := by
    unfold encode_words
    rw [(hs.perm _).length_eq, hlen]
  have hk : 128 < (encode_words sort script_129).length := by omega
  have hmem : (encode_words sort script_129)[128].word ∈ encode_tokens script_129 :=
    (hinv.2.1 _).mp (List.mem_map_of_mem _ (List.getElem_mem hk))
  have hf := find_getElem _ hinv.1 128 hk
  have hcost := h _ hmem
  unfold word_cost at hcost
  rw [hf, List.length_append, wml_to_string_length, htok _ hmem, hwc] at hcost
  have h1 : (wordpos_to_string ((128 : Nat) : Int)).length = 2 := by decide
  have h2 : digits256 2 = 1 := by decide
  have h3 : digits256 129 = 1 := by decide
  rw [h1, h2, h3] at hcost
  omega

/-! ## The library sort on short word lists -/

theorem unguarded_linear_insert_mem (comp : wv_block → wv_block → Bool) (val : wv_block)
    (r : List wv_block) (x : wv_block) :
    x ∈ unguarded_linear_insert comp val r ↔ x = val ∨ x ∈ r := by
  induction r with
  | nil => simp [unguarded_linear_insert]
  | cons next rest ih =>
    unfold unguarded_linear_insert
    by_cases h : comp val next = true
    · simp only [h, if_true, List.mem_cons, ih]
      tauto
    · simp only [h, Bool.false_eq_true, if_false, List.mem_cons]

theorem unguarded_linear_insert_filter (val : wv_block) (c : Int) (r : List wv_block) :
    (unguarded_linear_insert wv_sort val r).reverse.filter (fun b => decide (b.occurence = c)) =
      (r.reverse ++ [val]).filter (fun b => decide (b.occurence = c)) := by
  induction r with
  | nil => simp [unguarded_linear_insert]
  | cons next rest ih =>
    unfold unguarded_linear_insert
    by_cases h : wv_sort val next = true
    · have hlt : val.occurence > next.occurence := by simpa [wv_sort] using h
      simp only [h, if_true, List.reverse_cons, List.filter_append, ih, List.append_assoc]
      congr 1
      by_cases hv : val.occurence = c
      · have hn : ¬ next.occurence = c := by omega
        simp [List.filter_cons, hv, hn]
      · simp [List.filter_cons, hv]
    · simp only [h, Bool.false_eq_true, if_false, List.reverse_cons]

theorem unguarded_linear_insert_sorted (val : wv_block) (r : List wv_block)
    (h : r.Pairwise (fun a b => wv_sort a b = false)) :
    (unguarded_linear_insert wv_sort val r).Pairwise (fun a b => wv_sort a b = false) := by
  induction r with
  | nil => simp [unguarded_linear_insert]
  | cons next rest ih =>
    unfold unguarded_linear_insert
    rw [List.pairwise_cons] at h
    by_cases hc : wv_sort val next = true
    · simp only [hc, if_true]
      rw [List.pairwise_cons]
      refine ⟨?_, ih h.2⟩
      intro z hz
      rcases (unguarded_linear_insert_mem wv_sort val rest z).mp hz with e | e
      · subst e
        have hlt : z.occurence > next.occurence := by simpa [wv_sort] using hc
        simp only [wv_sort, decide_eq_false_iff_not]
        omega
      · exact h.1 z e
    · simp only [hc, Bool.false_eq_true, if_false]
      rw [List.pairwise_cons]
      refine ⟨?_, List.pairwise_cons.mpr h⟩
      have hle : ¬ val.occurence > next.occurence := by simpa [wv_sort] using hc
      intro z hz
      rcases List.mem_cons.mp hz with e | e
      · subst e
        simpa [wv_sort] using hle
      · have := h.1 z e
        simp only [wv_sort, decide_eq_false_iff_not] at this ⊢
        omega

/-- One round of the library's insertion sort keeps the part sorted and keeps entries of
equal count in their order. -/
theorem insertion_step_spec (pre : List wv_block) (x : wv_block)
    (h : pre.Pairwise (fun a b => wv_sort b a = false)) :
    (insertion_step wv_sort pre x).Pairwise (fun a b => wv_sort b a = false) ∧
    ∀ c : Int, (insertion_step wv_sort pre x).filter (fun b => decide (b.occurence = c)) =
      (pre ++ [x]).filter (fun b => decide (b.occurence = c)) := by
  cases pre with
  | nil => simp [insertion_step]
  | cons f fs =>
    unfold insertion_step
    by_cases hc : wv_sort x f = true
    · have hlt : x.occurence > f.occurence := by simpa [wv_sort] using hc
      have hall : ∀ z ∈ f :: fs, z.occurence < x.occurence := by
        intro z hz
        rcases List.mem_cons.mp hz with e | e
        · subst e; omega
        · have := (wv_sort_false _ _).mp ((List.pairwise_cons.mp h).1 z e)
          omega
      simp only [hc, if_true]
      constructor
      · rw [List.pairwise_cons]
        exact ⟨fun z hz => (wv_sort_false _ _).mpr (by have := hall z hz; omega), h⟩
      · intro c
        by_cases hx : x.occurence = c
        · have hnone : (f :: fs).filter (fun b => decide (b.occurence = c)) = [] := by
            rw [List.filter_eq_nil_iff]
            intro z hz
            have := hall z hz
            simp only [decide_eq_true_eq]
            omega
          rw [List.filter_append, hnone, List.filter_cons, hnone]
          simp [List.filter_cons, hx]
        · rw [List.filter_append, List.filter_cons]
          simp [List.filter_cons, hx]
    · simp only [hc, Bool.false_eq_true, if_false]
      constructor
      · rw [List.pairwise_reverse]
        apply unguarded_linear_insert_sorted
        rw [List.pairwise_reverse]
        exact h
      · intro c
        rw [unguarded_linear_insert_filter, List.reverse_reverse]

theorem insertion_foldl_spec (xs : List wv_block) :
    ∀ pre l0 : List wv_block, pre.Pairwise (fun a b => wv_sort b a = false) →
      (∀ c : Int, pre.filter (fun b => decide (b.occurence = c)) =
        l0.filter (fun b => decide (b.occurence = c))) →
      (xs.foldl (insertion_step wv_sort) pre).Pairwise (fun a b => wv_sort b a = false) ∧
      ∀ c : Int, (xs.foldl (insertion_step wv_sort) pre).filter
          (fun b => decide (b.occurence = c)) =
        (l0 ++ xs).filter (fun b => decide (b.occurence = c)) := by
  induction xs with
  | nil => intro pre l0 hs hf; simpa using ⟨hs, hf⟩
  | cons x xs ih =>
    intro pre l0 hs hf
    rw [List.foldl_cons]
    obtain ⟨h1, h2⟩ := insertion_step_spec pre x hs
    have := ih (insertion_step wv_sort pre x) (l0 ++ [x]) h1 (fun c => by
      rw [h2 c, List.filter_append, List.filter_append, hf c])
    simpa using this

/-- The insertion sort of the library returns what the reference insertion sort returns. -/
theorem std_insertion_sort_eq (l : List wv_block) :
    std_insertion_sort wv_sort l = insertion_sort wv_sort l := by
  cases l with
  | nil => rfl
  | cons x xs =>
    obtain ⟨h1, h2⟩ := insertion_foldl_spec xs [x] [x] (by simp) (fun _ => rfl)
    apply sorted_filter_unique _ _ h1 (insertion_sort_sorted _)
    intro c
    have h3 := h2 c
    simp only [List.singleton_append] at h3
    exact h3.trans (insertion_sort_stable (x :: xs) c).symm

/-- On at most 16 entries the library sort only runs its insertion sort. -/
theorem libstdcxx_sort_short (l : List wv_block) (h : l.length ≤ 16) :
    libstdcxx_sort wv_sort l = some (insertion_sort wv_sort l) := by
  cases l with
  | nil => rfl
  | cons x xs =>
    have hloop : ∀ d, introsort_loop wv_sort d (x :: xs) 0 (x :: xs).length = some (x :: xs) := by
      intro d
      have hn : ¬ (x :: xs).length - 0 > 16 := by omega
      cases d <;> simp only [introsort_loop, hn, if_false]
    have hfin : final_insertion_sort wv_sort (x :: xs) = std_insertion_sort wv_sort (x :: xs) := by
      have hn : ¬ (x :: xs).length > 16 := by omega
      unfold final_insertion_sort
      simp only [hn, if_false]
    simp only [libstdcxx_sort, hloop, hfin, std_insertion_sort_eq]

/-! ## The order of words of equal count under the library sort -/

/-- C12 (counterexample): on the 17 different words of `"a b c d e f g h i j k l m n o p q"`,
each occurring once, the sort of libstdc++ partitions the word list and returns it in the
order i, q, p, o, n, m, l, k, j, a, h, g, f, e, d, c, b: the word `"i "` gets rank 0 and
`"a "` rank 9 although `"a "` occurs first. -/
theorem encode_words_tie_order_counterexample :
    ∃ ws : List wv_block,
      libstdcxx_sort wv_sort (encode_pass1 (bytes "a b c d e f g h i j k l m n o p q")).1 =
        some ws ∧
      ws.map (fun b => b.word) =
        [bytes "i ", bytes "q", bytes "p ", bytes "o ", bytes "n ", bytes "m ", bytes "l ",
          bytes "k ", bytes "j ", bytes "a ", bytes "h ", bytes "g ", bytes "f ", bytes "e ",
          bytes "d ", bytes "c ", bytes "b "] ∧
      (∀ b ∈ ws, b.occurence = 1) ∧
      find (bytes "i ") ws = 0 ∧ find (bytes "a ") ws = 9 ∧
      first_occurrence (bytes "a ") (encode_tokens (bytes "a b c d e f g h i j k l m n o p q"))
        = 0 ∧
      first_occurrence (bytes "i ") (encode_tokens (bytes "a b c d e f g h i j k l m n o p q"))
        = 8 := by
  refine ⟨[⟨bytes "i ", 1, 0⟩, ⟨bytes "q", 1, 0⟩, ⟨bytes "p ", 1, 0⟩, ⟨bytes "o ", 1, 0⟩,
    ⟨bytes "n ", 1, 0⟩, ⟨bytes "m ", 1, 0⟩, ⟨bytes "l ", 1, 0⟩, ⟨bytes "k ", 1, 0⟩,
    ⟨bytes "j ", 1, 0⟩, ⟨bytes "a ", 1, 0⟩, ⟨bytes "h ", 1, 0⟩, ⟨bytes "g ", 1, 0⟩,
    ⟨bytes "f ", 1, 0⟩, ⟨bytes "e ", 1, 0⟩, ⟨bytes "d ", 1, 0⟩, ⟨bytes "c ", 1, 0⟩,
    ⟨bytes "b ", 1, 0⟩], ?_, ?_, ?_, ?_, ?_, ?_, ?_⟩ <;> decide

/-- C12 (amended): for every input with at most 16 different words the sort of libstdc++
only runs its insertion sort, and dictionary words of equal count are ranked in the order
of their first occurrence in the input; the dictionary of
`"the cat sat on the mat the cat ran"` is `"the "` (count 3), `"cat "` (count 2), then
`"sat "`, `"on "`, `"mat "`, `"ran"` (count 1 each). -/
theorem encode_words_tie_order (data : List Nat) (h16 : (encode_pass1 data).1.length ≤ 16) :
    (∃ ws : List wv_block,
      libstdcxx_sort wv_sort (encode_pass1 data).1 = some ws ∧
      ∀ i j, (hij : i < j) → (hj : j < ws.length) →
        ws[i].occurence = ws[j].occurence →
        first_occurrence ws[i].word (encode_tokens data) <
          first_occurrence ws[j].word (encode_tokens data)) ∧
    libstdcxx_sort wv_sort (encode_pass1 (bytes "the cat sat on the mat the cat ran")).1 =
      some [⟨bytes "the ", 3, 0⟩, ⟨bytes "cat ", 2, 0⟩, ⟨bytes "sat ", 1, 0⟩,
        ⟨bytes "on ", 1, 0⟩, ⟨bytes "mat ", 1, 0⟩, ⟨bytes "ran", 1, 0⟩] := by
  constructor
  · refine ⟨encode_words (insertion_sort wv_sort) data, libstdcxx_sort_short _ h16, ?_⟩
    intro i j hij hj heq
    exact stable_tie_order (insertion_sort wv_sort) insertion_sort_stable data i j hij hj heq
  · rw [libstdcxx_sort_short _ (by decide)]
    exact congrArg some example_words

/-- Witness of C12 (amended) on the input `"the cat sat on the mat the cat ran"`. -/
theorem encode_words_tie_order_witness :
    (encode_pass1 (bytes "the cat sat on the mat the cat ran")).1.length ≤ 16 ∧
    (∃ ws : List wv_block,
      libstdcxx_sort wv_sort (encode_pass1 (bytes "the cat sat on the mat the cat ran")).1 =
        some ws ∧
      ∀ i j, (hij : i < j) → (hj : j < ws.length) →
        ws[i].occurence = ws[j].occurence →
        first_occurrence ws[i].word
            (encode_tokens (bytes "the cat sat on the mat the cat ran")) <
          first_occurrence ws[j].word
            (encode_tokens (bytes "the cat sat on the mat the cat ran"))) ∧
    libstdcxx_sort wv_sort (encode_pass1 (bytes "the cat sat on the mat the cat ran")).1 =
      some [⟨bytes "the ", 3, 0⟩, ⟨bytes "cat ", 2, 0⟩, ⟨bytes "sat ", 1, 0⟩,
        ⟨bytes "on ", 1, 0⟩, ⟨bytes "mat ", 1, 0⟩, ⟨bytes "ran", 1, 0⟩] :=
  ⟨by decide, encode_words_tie_order (bytes "the cat sat on the mat the cat ran") (by decide)⟩

end RAML
